import Mathlib

/-!
Shallow embedding of the `AutoTrader` strategy core of `src/trader-3.py`
(Ready Trader Go auto-trader).

Modelling conventions:

* Prices and volumes are `Int` (Python integers); client order ids are `Nat`.
* Python dicts `self.bids` / `self.asks` (id -> limit price) are association
  lists in insertion order.  Each entry additionally carries a third, ghost
  component: the remaining unfilled volume of the order.  The source never
  stores volumes; the ghost component is written only by the environment-facing
  fill bookkeeping and is never read by any branch of the translated control
  flow.  It exists so that "a sequence of fills consistent with the sizing
  rules" (fills never exceeding what was actually ordered) can be stated.
* The rate-admission controller (`check_message_limit`) consults wall-clock
  time, so inside the event-step model each admission check's outcome is an
  input: every book-update event carries a list of booleans, consumed one per
  admission check.  The timestamp mechanism itself is modelled exactly, over
  `Rat` time, by `check_message_limit` further below, and the blocking hedge
  admission loop by `hedgeTries`.
* `send_hedge_order` blocks (sleep-polling) until admission succeeds, so in
  the event-step model a hedge send always goes out; termination of the
  polling loop is proved separately about `hedgeTries`.
* Handlers return the list of outbound commands they emit, in order.
-/

/-- volume per order (`LOT_SIZE = 20`). -/
def LOT_SIZE : Int := 20

/-- max position limit (`POSITION_LIMIT = 100`). -/
def POSITION_LIMIT : Int := 100

/-- arbitrage must not raise position above this (`ARBITRAGE_LIMIT = 20`). -/
def ARBITRAGE_LIMIT : Int := 20

/-- tick size in cents (`TICK_SIZE_IN_CENTS = 100`). -/
def TICK_SIZE_IN_CENTS : Int := 100

/-- Modelled from the spec: the exchange-wide minimum bid bound `MINIMUM_BID`,
imported by the source from the `ready_trader_go` package, which is not under
`src/`.  The spec calls it "the minimum bid bound"; the Ready Trader Go
protocol value (one cent) is used. -/
def MINIMUM_BID : Int := 1

/-- Modelled from the spec: the exchange-wide maximum ask bound `MAXIMUM_ASK`,
imported by the source from the `ready_trader_go` package, which is not under
`src/`.  The Ready Trader Go protocol value `2 ^ 31 - 1` is used. -/
def MAXIMUM_ASK : Int := 2 ^ 31 - 1

/-- `MIN_BID_NEAREST_TICK = (MINIMUM_BID + TICK_SIZE_IN_CENTS) // TICK_SIZE_IN_CENTS * TICK_SIZE_IN_CENTS`. -/
def MIN_BID_NEAREST_TICK : Int :=
  (MINIMUM_BID + TICK_SIZE_IN_CENTS).fdiv TICK_SIZE_IN_CENTS * TICK_SIZE_IN_CENTS

/-- `MAX_ASK_NEAREST_TICK = MAXIMUM_ASK // TICK_SIZE_IN_CENTS * TICK_SIZE_IN_CENTS`. -/
def MAX_ASK_NEAREST_TICK : Int :=
  MAXIMUM_ASK.fdiv TICK_SIZE_IN_CENTS * TICK_SIZE_IN_CENTS

/-- Order side; `Side.bid` is `Side.BUY`/`Side.BID`, `Side.ask` is
`Side.SELL`/`Side.ASK` of the source. -/
inductive Side where
  | bid
  | ask
deriving DecidableEq, Repr

/-- Order lifespan (`Lifespan.GOOD_FOR_DAY` / `Lifespan.FILL_AND_KILL`). -/
inductive Lifespan where
  | goodForDay
  | fillAndKill
deriving DecidableEq, Repr

/-- The two instruments. -/
inductive Instrument where
  | future
  | etf
deriving DecidableEq, Repr

/-- Outbound commands the core can issue to the exchange transport. -/
inductive Command where
  | insertOrder (id : Nat) (side : Side) (price : Int) (volume : Int) (life : Lifespan)
  | cancelOrder (id : Nat)
  | hedgeOrder (id : Nat) (side : Side) (price : Int) (volume : Int)
deriving DecidableEq, Repr

/-- The mutable state of `AutoTrader`.  `bids`/`asks` entries are
`(id, limit price, ghost remaining volume)`. -/
structure TraderState where
  order_ids : Nat
  bids : List (Nat × Int × Int)
  asks : List (Nat × Int × Int)
  hedge_bid : List Nat
  hedge_ask : List Nat
  msg_seq : Nat
  position : Int
  future_bid : Int
  future_ask : Int
  delta : Int
deriving DecidableEq, Repr

/-- `AutoTrader.__init__`: `itertools.count(1)`, empty books, all counters 0. -/
def initialState : TraderState :=
  { order_ids := 1, bids := [], asks := [], hedge_bid := [], hedge_ask := []
    msg_seq := 0, position := 0, future_bid := 0, future_ask := 0, delta := 0 }

/-- Dictionary lookup by id. -/
def findOrder (l : List (Nat × Int × Int)) (id : Nat) : Option (Nat × Int × Int) :=
  l.find? (fun e => e.1 == id)

/-- Dictionary key membership (`client_order_id in self.bids`). -/
def hasOrder (l : List (Nat × Int × Int)) (id : Nat) : Bool :=
  (findOrder l id).isSome

/-- Dictionary removal (`self.bids.pop(client_order_id, None)`). -/
def removeOrder (l : List (Nat × Int × Int)) (id : Nat) : List (Nat × Int × Int) :=
  l.filter (fun e => e.1 != id)

/-- The prices of a dictionary (`self.asks.values()`). -/
def orderValues (l : List (Nat × Int × Int)) : List Int :=
  l.map (fun e => e.2.1)

/-- Environment-side ghost bookkeeping: subtract a filled volume from the
remaining volume of order `id`.  Never read by translated control flow. -/
def updateFill (l : List (Nat × Int × Int)) (id : Nat) (v : Int) : List (Nat × Int × Int) :=
  l.map (fun e => if e.1 == id then (e.1, e.2.1, e.2.2 - v) else e)

/-- Sum of the ghost remaining volumes of a dictionary. -/
def remSum (l : List (Nat × Int × Int)) : Int :=
  (l.map (fun e => e.2.2)).sum

/-- A send context: trader state, the remaining admission oracle (one boolean
per `check_message_limit` call made by a non-blocking send), and the commands
emitted so far. -/
structure SendCtx where
  st : TraderState
  adm : List Bool
  out : List Command
deriving DecidableEq, Repr

/-- Consume one admission-check outcome; an exhausted oracle refuses. -/
def takeAdm : List Bool → Bool × List Bool
  | [] => (false, [])
  | b :: r => (b, r)

/-- `AutoTrader.send_bid_order`: admission check, then allocate the next id,
send the insert and record the order under its limit price. -/
def send_bid_order (c : SendCtx) (price volume : Int) (life : Lifespan) : SendCtx :=
  let a := takeAdm c.adm
  if a.1 then
    { st := { c.st with
        order_ids := c.st.order_ids + 1
        bids := c.st.bids ++ [(c.st.order_ids, price, volume)] }
      adm := a.2
      out := c.out ++ [Command.insertOrder c.st.order_ids Side.bid price volume life] }
  else { c with adm := a.2 }

/-- `AutoTrader.send_ask_order`. -/
def send_ask_order (c : SendCtx) (price volume : Int) (life : Lifespan) : SendCtx :=
  let a := takeAdm c.adm
  if a.1 then
    { st := { c.st with
        order_ids := c.st.order_ids + 1
        asks := c.st.asks ++ [(c.st.order_ids, price, volume)] }
      adm := a.2
      out := c.out ++ [Command.insertOrder c.st.order_ids Side.ask price volume life] }
  else { c with adm := a.2 }

/-- `AutoTrader.send_hedge_order`: blocking admission (spins until it
succeeds, so the send always goes out), allocate the next id, record it in
the matching hedge set, and send. -/
def send_hedge_order (c : SendCtx) (price volume : Int) (side : Side) : SendCtx :=
  { st := { c.st with
      order_ids := c.st.order_ids + 1
      hedge_bid := if side = Side.bid then c.st.hedge_bid ++ [c.st.order_ids] else c.st.hedge_bid
      hedge_ask := if side = Side.bid then c.st.hedge_ask else c.st.hedge_ask ++ [c.st.order_ids] }
    adm := c.adm
    out := c.out ++ [Command.hedgeOrder c.st.order_ids side price volume] }

/-- `AutoTrader.send_cancel_order`: admission check, then forward the cancel.
The ledger entry is not removed here. -/
def send_cancel_order (c : SendCtx) (id : Nat) : SendCtx :=
  let a := takeAdm c.adm
  if a.1 then { c with adm := a.2, out := c.out ++ [Command.cancelOrder id] }
  else { c with adm := a.2 }

/-- Shared shape of the cancellation sweeps: walk a dictionary and request a
cancel for every entry whose price satisfies `cond`. -/
def cancelWhere (c : SendCtx) (l : List (Nat × Int × Int)) (cond : Int → Bool) : SendCtx :=
  l.foldl (fun acc e => if cond e.2.1 then send_cancel_order acc e.1 else acc) c

/-- `AutoTrader.trim_orders`: cancel every resting bid above the future ask
and every resting ask below the future bid. -/
def trim_orders (c : SendCtx) : SendCtx :=
  let c1 := cancelWhere c c.st.bids (fun bid => decide (c.st.future_ask < bid))
  cancelWhere c1 c1.st.asks (fun ask => decide (ask < c1.st.future_bid))

/-- The cutoff scan of `AutoTrader.clear_book`: accumulate reported volumes
best-first; the cutoff is the price of the level at which the running total
first reaches `3 * LOT_SIZE`, else the supplied default. -/
def cutoffPrice : List Int → List Int → Int → Int → Int
  | p :: ps, v :: vs, acc, dflt =>
    if 3 * LOT_SIZE ≤ acc + v then p else cutoffPrice ps vs (acc + v) dflt
  | _, _, _, dflt => dflt

/-- `AutoTrader.clear_book`: compute both cutoffs (defaulting to the last
reported level), then cancel every resting bid at or below the bid cutoff and
every resting ask at or above the ask cutoff. -/
def clear_book (c : SendCtx) (ask_prices bid_prices ask_volumes bid_volumes : List Int) :
    SendCtx :=
  let cutoff_ask := cutoffPrice ask_prices ask_volumes 0 (ask_prices.getLastD 0)
  let cutoff_bid := cutoffPrice bid_prices bid_volumes 0 (bid_prices.getLastD 0)
  let c1 := cancelWhere c c.st.bids (fun bid => decide (bid ≤ cutoff_bid))
  cancelWhere c1 c1.st.asks (fun ask => decide (cutoff_ask ≤ ask))

/-- `AutoTrader.handle_arbitrage`. -/
def handle_arbitrage (c : SendCtx) (ask_prices ask_volumes bid_prices bid_volumes : List Int) :
    SendCtx :=
  if ask_prices.headD 0 < c.st.future_bid then
    let buy_volume := min (ask_volumes.headD 0) (ARBITRAGE_LIMIT - c.st.position)
    let buy_price := ask_prices.headD 0
    if 0 < buy_volume then send_bid_order c buy_price buy_volume Lifespan.fillAndKill else c
  else if c.st.future_ask < bid_prices.headD 0 then
    let sell_volume := min (bid_volumes.headD 0) (c.st.position + ARBITRAGE_LIMIT)
    let sell_price := bid_prices.headD 0
    if 0 < sell_volume then send_ask_order c sell_price sell_volume Lifespan.fillAndKill else c
  else c

/-- The Python `range(a, b, TICK_SIZE_IN_CENTS)` ladder of quote prices:
`a, a + 100, ...` strictly below `b`. -/
def priceRange (a b : Int) : List Int :=
  (List.range (((b - a).toNat + 99) / 100)).map (fun k : Nat => a + 100 * (k : Int))

/-- The ask-placement loop of `handle_market_making`: walk the ladder, and at
each price not already quoted, while capacity remains, attempt a `LOT_SIZE`
ask and decrement the capacity counter (the counter is decremented even when
the send is throttled, as in the source). -/
def mmAskLoop : SendCtx → Int → List Int → SendCtx
  | c, _, [] => c
  | c, cnt, i :: rest =>
    if i ∉ orderValues c.st.asks ∧ 0 < cnt then
      mmAskLoop (send_ask_order c i LOT_SIZE Lifespan.goodForDay) (cnt - 1) rest
    else mmAskLoop c cnt rest

/-- The bid-placement loop of `handle_market_making`. -/
def mmBidLoop : SendCtx → Int → List Int → SendCtx
  | c, _, [] => c
  | c, cnt, i :: rest =>
    if i ∉ orderValues c.st.bids ∧ 0 < cnt then
      mmBidLoop (send_bid_order c i LOT_SIZE Lifespan.goodForDay) (cnt - 1) rest
    else mmBidLoop c cnt rest

/-- `AutoTrader.handle_market_making`: clear the book, compute per-side
capacities and the quoting band, then place asks from `min_ask` up to the ETF
best ask and bids from the ETF best bid up to `max_bid`. -/
def handle_market_making (c : SendCtx) (bid_prices bid_volumes ask_prices ask_volumes : List Int) :
    SendCtx :=
  let c0 := clear_book c ask_prices bid_prices ask_volumes bid_volumes
  let max_buy_order := (POSITION_LIMIT - c0.st.position).fdiv LOT_SIZE - c0.st.bids.length
  let max_sell_order := (c0.st.position + POSITION_LIMIT).fdiv LOT_SIZE - c0.st.asks.length
  let max_bid := c0.st.future_bid - 2 * TICK_SIZE_IN_CENTS
  let min_ask := c0.st.future_ask + 2 * TICK_SIZE_IN_CENTS
  let etf_bid := bid_prices.headD 0
  let etf_ask := ask_prices.headD 0
  let c1 := mmAskLoop c0 max_sell_order (priceRange min_ask etf_ask)
  mmBidLoop c1 max_buy_order (priceRange etf_bid max_bid)

/-- `AutoTrader.on_order_book_update_message`. -/
def on_order_book_update (s : TraderState) (instrument : Instrument) (sequence_number : Nat)
    (ask_prices ask_volumes bid_prices bid_volumes : List Int) (adm : List Bool) :
    TraderState × List Command :=
  let s1 := { s with msg_seq := max s.msg_seq sequence_number }
  if sequence_number ≠ s1.msg_seq then (s1, [])
  else if bid_prices.headD 0 = 0 ∨ ask_prices.headD 0 = 0 then (s1, [])
  else
    match instrument with
    | Instrument.etf =>
      let c0 : SendCtx := ⟨s1, adm, []⟩
      let c1 :=
        if ask_prices.headD 0 < s1.future_bid ∨ s1.future_ask < bid_prices.headD 0 then
          handle_arbitrage c0 ask_prices ask_volumes bid_prices bid_volumes
        else if s1.future_ask < ask_prices.headD 0 ∧ bid_prices.headD 0 < s1.future_bid then
          handle_market_making c0 bid_prices bid_volumes ask_prices ask_volumes
        else c0
      (c1.st, c1.out)
    | Instrument.future =>
      let s2 := { s1 with future_bid := bid_prices.headD 0, future_ask := ask_prices.headD 0 }
      let c1 := trim_orders ⟨s2, adm, []⟩
      (c1.st, c1.out)

/-- `AutoTrader.on_order_filled_message`: a fill on a ledger bid raises
position and delta and hedges with a sell at `MIN_BID_NEAREST_TICK`; a fill on
a ledger ask lowers them and hedges with a buy at `MAX_ASK_NEAREST_TICK`.
The ghost remaining volume of the filled order is reduced accordingly. -/
def on_order_filled (s : TraderState) (id : Nat) (_price volume : Int) :
    TraderState × List Command :=
  if hasOrder s.bids id then
    let s1 := { s with
      position := s.position + volume
      delta := s.delta + volume
      bids := updateFill s.bids id volume }
    let c := send_hedge_order ⟨s1, [], []⟩ MIN_BID_NEAREST_TICK volume Side.ask
    (c.st, c.out)
  else if hasOrder s.asks id then
    let s1 := { s with
      position := s.position - volume
      delta := s.delta - volume
      asks := updateFill s.asks id volume }
    let c := send_hedge_order ⟨s1, [], []⟩ MAX_ASK_NEAREST_TICK volume Side.bid
    (c.st, c.out)
  else (s, [])

/-- `AutoTrader.on_order_status_message`: zero remaining volume retires the
order from whichever book holds it. -/
def on_order_status (s : TraderState) (id : Nat) (_fill_volume remaining_volume _fees : Int) :
    TraderState × List Command :=
  if remaining_volume = 0 then
    ({ s with bids := removeOrder s.bids id, asks := removeOrder s.asks id }, [])
  else (s, [])

/-- `AutoTrader.on_error_message`: a nonzero id referencing a ledger order is
treated as fully resolved via the status path. -/
def on_error (s : TraderState) (id : Nat) : TraderState × List Command :=
  if id ≠ 0 ∧ (hasOrder s.bids id || hasOrder s.asks id) then on_order_status s id 0 0 0
  else (s, [])

/-- `AutoTrader.on_hedge_filled_message`: adjusts delta only and retires the
hedge id from its set. -/
def on_hedge_filled (s : TraderState) (id : Nat) (_price volume : Int) :
    TraderState × List Command :=
  if s.hedge_bid.contains id then
    ({ s with hedge_bid := s.hedge_bid.filter (fun x => x != id), delta := s.delta + volume }, [])
  else if s.hedge_ask.contains id then
    ({ s with hedge_ask := s.hedge_ask.filter (fun x => x != id), delta := s.delta - volume }, [])
  else (s, [])

/-- Inbound events delivered by the host transport.  Book updates carry their
admission oracle (cf. the module comment). -/
inductive Event where
  | bookUpdate (instrument : Instrument) (seq : Nat)
      (askP askV bidP bidV : List Int) (adm : List Bool)
  | tradeTicks (instrument : Instrument) (seq : Nat) (askP askV bidP bidV : List Int)
  | orderFilled (id : Nat) (price volume : Int)
  | orderStatus (id : Nat) (fillVolume remainingVolume fees : Int)
  | hedgeFilled (id : Nat) (price volume : Int)
  | errorMessage (id : Nat)
deriving DecidableEq, Repr

/-- Whether an event is an order-filled callback. -/
def Event.isOrderFilled : Event → Bool
  | Event.orderFilled _ _ _ => true
  | _ => false

/-- Dispatch one inbound event to its handler. -/
def step (s : TraderState) : Event → TraderState × List Command
  | Event.bookUpdate i q ap av bp bv adm => on_order_book_update s i q ap av bp bv adm
  | Event.tradeTicks _ _ _ _ _ _ => (s, [])
  | Event.orderFilled id p v => on_order_filled s id p v
  | Event.orderStatus id f r fee => on_order_status s id f r fee
  | Event.hedgeFilled id p v => on_hedge_filled s id p v
  | Event.errorMessage id => on_error s id

/-- Run a sequence of events. -/
def runState (s : TraderState) : List Event → TraderState
  | [] => s
  | e :: r => runState (step s e).1 r

/-- One fill event is consistent with the orders actually placed when its
volume is positive and does not exceed the order's remaining volume (looked
up in the ledger the handler itself consults). -/
def fillOk (s : TraderState) : Event → Bool
  | Event.orderFilled id _ v =>
    match findOrder s.bids id with
    | some e => decide (0 < v) && decide (v ≤ e.2.2)
    | none =>
      match findOrder s.asks id with
      | some e => decide (0 < v) && decide (v ≤ e.2.2)
      | none => true
  | _ => true

/-- A trace whose fills are all consistent with the orders the strategy
actually sized and sent. -/
def consistentTrace (s : TraderState) : List Event → Bool
  | [] => true
  | e :: r => fillOk s e && consistentTrace (step s e).1 r

/-- Whether a command is a fill-and-kill insert (only the arbitrage detector
emits these). -/
def isFakInsert : Command → Bool
  | Command.insertOrder _ _ _ _ Lifespan.fillAndKill => true
  | _ => false

/-- A trace during which no arbitrage (fill-and-kill) order is ever sent. -/
def noFakTrace (s : TraderState) : List Event → Bool
  | [] => true
  | e :: r => (step s e).2.all (fun c => !isFakInsert c) && noFakTrace (step s e).1 r

/-- `AutoTrader.check_message_limit`, modelled exactly over rational time:
prune timestamps older than 1.01 s from the front, refuse (without appending)
when the pruned window holds 50 entries, otherwise append the current time
and admit.  Returns the decision and the new window. -/
def check_message_limit (w : List ℚ) (t : ℚ) : Bool × List ℚ :=
  let w1 := w.dropWhile (fun x => decide (x < t - 101 / 100))
  if w1.length = 50 then (false, w1) else (true, w1 ++ [t])

/-- Run a sequence of admission attempts at the given times from a window;
returns the final window and the list of admitted timestamps. -/
def runCalls (w : List ℚ) : List ℚ → List ℚ × List ℚ
  | [] => (w, [])
  | t :: r =>
    let a := check_message_limit w t
    let rec' := runCalls a.2 r
    (rec'.1, if a.1 then t :: rec'.2 else rec'.2)

/-- Number of admitted timestamps inside the trailing 1.01-second window
ending at `b`. -/
def countIn (l : List ℚ) (b : ℚ) : Nat :=
  (l.filter (fun x => decide (b - 101 / 100 ≤ x) && decide (x ≤ b))).length

/-- The blocking admission loop of `send_hedge_order`: try, and on refusal
retry 0.1 s later.  Returns the number of retries needed, `none` if the fuel
runs out. -/
def hedgeTries : List ℚ → ℚ → Nat → Option Nat
  | _, _, 0 => none
  | w, t, fuel + 1 =>
    let a := check_message_limit w t
    if a.1 then some 0 else (hedgeTries a.2 (t + 1 / 10) fuel).map (fun k => k + 1)

/-- The spec's wording of the `clear_book` cutoff: the price of the first
level, best-first, at which cumulative reported volume reaches
`3 * LOT_SIZE`, defaulting to `dflt` (the worst visible level) when the
threshold is never reached. -/
def cutoffSpec (prices vols : List Int) (dflt : Int) : Int :=
  match (List.range vols.length).find?
      (fun i => decide (3 * LOT_SIZE ≤ ((vols.take (i + 1)).sum))) with
  | some i => prices.getD i 0
  | none => dflt

/-- Written from the spec's words for comparison (claim C3): the hedge-sell
price as "the nearest-tick floor of the minimum bid bound". -/
def specHedgeSellPrice : Int :=
  MINIMUM_BID.fdiv TICK_SIZE_IN_CENTS * TICK_SIZE_IN_CENTS

/-- Written from the spec's words for comparison (claim C3): the hedge-buy
price as "the nearest-tick ceiling of the maximum ask bound". -/
def specHedgeBuyPrice : Int :=
  -((-MAXIMUM_ASK).fdiv TICK_SIZE_IN_CENTS * TICK_SIZE_IN_CENTS)

/-- Well-formedness of a ledger book relative to the id counter: keys are
below the counter and duplicate-free, ghost remaining volumes lie in
`[0, LOT_SIZE]`. -/
def ordersWF (l : List (Nat × Int × Int)) (n : Nat) : Prop :=
  (∀ e ∈ l, e.1 < n) ∧ (l.map (fun e => e.1)).Nodup ∧
    ∀ e ∈ l, 0 ≤ e.2.2 ∧ e.2.2 ≤ LOT_SIZE

/-- The inductive invariant behind the position bound: both books are
well-formed and the position plus the open volume on each side is within the
limit. -/
def PosInv (s : TraderState) : Prop :=
  ordersWF s.bids s.order_ids ∧ ordersWF s.asks s.order_ids ∧
    s.position + remSum s.bids ≤ POSITION_LIMIT ∧
    -s.position + remSum s.asks ≤ POSITION_LIMIT

/-- The counterexample trace for claim C1: a future snapshot, a quotable ETF
snapshot on which the quoter rests five 20-lot bids, a crossed ETF snapshot
on which the arbitrage detector buys 20 more, then fills on all six orders. -/
def mixedFillTrace : List Event :=
  [ Event.bookUpdate Instrument.future 1 [10100, 0, 0, 0, 0] [20, 0, 0, 0, 0]
      [10000, 0, 0, 0, 0] [20, 0, 0, 0, 0] [true, true, true, true, true, true, true, true],
    Event.bookUpdate Instrument.etf 2 [10300, 0, 0, 0, 0] [20, 0, 0, 0, 0]
      [9300, 0, 0, 0, 0] [20, 0, 0, 0, 0] [true, true, true, true, true, true, true, true],
    Event.bookUpdate Instrument.etf 3 [9900, 0, 0, 0, 0] [20, 0, 0, 0, 0]
      [9300, 0, 0, 0, 0] [20, 0, 0, 0, 0] [true, true, true, true, true, true, true, true],
    Event.orderFilled 6 9900 20,
    Event.orderFilled 1 9300 20,
    Event.orderFilled 2 9400 20,
    Event.orderFilled 3 9500 20,
    Event.orderFilled 4 9600 20,
    Event.orderFilled 5 9700 20 ]

/-- The duplicate-snapshot counterexample trace for claim C6: the same
crossed ETF snapshot delivered after itself. -/
def dupSnapshot : Event :=
  Event.bookUpdate Instrument.etf 2 [9900, 0, 0, 0, 0] [20, 0, 0, 0, 0]
    [9300, 0, 0, 0, 0] [20, 0, 0, 0, 0] [true, true]

/-- State after a future snapshot and one delivery of `dupSnapshot`. -/
def dupState : TraderState :=
  runState initialState
    [ Event.bookUpdate Instrument.future 1 [10100, 0, 0, 0, 0] [20, 0, 0, 0, 0]
        [10000, 0, 0, 0, 0] [20, 0, 0, 0, 0] [true, true],
      dupSnapshot ]

/-! ### Basic lemmas about the send primitives -/

theorem send_cancel_st (c : SendCtx) (id : Nat) : (send_cancel_order c id).st = c.st := by
  cases h : c.adm with
  | nil => simp [send_cancel_order, takeAdm, h]
  | cons b r => cases b <;> simp [send_cancel_order, takeAdm, h]

theorem send_hedge_st_core (c : SendCtx) (p v : Int) (sd : Side) :
    (send_hedge_order c p v sd).st.bids = c.st.bids ∧
    (send_hedge_order c p v sd).st.asks = c.st.asks ∧
    (send_hedge_order c p v sd).st.position = c.st.position ∧
    (send_hedge_order c p v sd).st.order_ids = c.st.order_ids + 1 := by
  refine ⟨rfl, rfl, rfl, rfl⟩

theorem send_hedge_out (c : SendCtx) (p v : Int) (sd : Side) :
    (send_hedge_order c p v sd).out = c.out ++ [Command.hedgeOrder c.st.order_ids sd p v] := rfl

theorem send_bid_cases (c : SendCtx) (p v : Int) (lf : Lifespan) :
    ((send_bid_order c p v lf).st = c.st ∧ (send_bid_order c p v lf).out = c.out) ∨
    ((send_bid_order c p v lf).st =
        { c.st with order_ids := c.st.order_ids + 1, bids := c.st.bids ++ [(c.st.order_ids, p, v)] } ∧
      (send_bid_order c p v lf).out =
        c.out ++ [Command.insertOrder c.st.order_ids Side.bid p v lf]) := by
  cases h : c.adm with
  | nil => left; simp [send_bid_order, takeAdm, h]
  | cons b r =>
    cases b
    · left; simp [send_bid_order, takeAdm, h]
    · right; simp [send_bid_order, takeAdm, h]

theorem send_ask_cases (c : SendCtx) (p v : Int) (lf : Lifespan) :
    ((send_ask_order c p v lf).st = c.st ∧ (send_ask_order c p v lf).out = c.out) ∨
    ((send_ask_order c p v lf).st =
        { c.st with order_ids := c.st.order_ids + 1, asks := c.st.asks ++ [(c.st.order_ids, p, v)] } ∧
      (send_ask_order c p v lf).out =
        c.out ++ [Command.insertOrder c.st.order_ids Side.ask p v lf]) := by
  cases h : c.adm with
  | nil => left; simp [send_ask_order, takeAdm, h]
  | cons b r =>
    cases b
    · left; simp [send_ask_order, takeAdm, h]
    · right; simp [send_ask_order, takeAdm, h]

theorem cancelWhere_st (c : SendCtx) (l : List (Nat × Int × Int)) (cond : Int → Bool) :
    (cancelWhere c l cond).st = c.st := by
  induction l generalizing c with
  | nil => rfl
  | cons e r ih =>
    have h : cancelWhere c (e :: r) cond =
        cancelWhere (if cond e.2.1 then send_cancel_order c e.1 else c) r cond := rfl
    rw [h, ih]
    split
    · exact send_cancel_st c e.1
    · rfl

theorem trim_orders_st (c : SendCtx) : (trim_orders c).st = c.st := by
  unfold trim_orders
  rw [cancelWhere_st, cancelWhere_st]

theorem clear_book_st (c : SendCtx) (ap bp av bv : List Int) :
    (clear_book c ap bp av bv).st = c.st := by
  unfold clear_book
  rw [cancelWhere_st, cancelWhere_st]

/-! ### The sequence-number gate -/

theorem gate_discard (s : TraderState) (i : Instrument) (seq : Nat)
    (ap av bp bv : List Int) (adm : List Bool) (h : seq < s.msg_seq) :
    on_order_book_update s i seq ap av bp bv adm = (s, []) := by
  have hmax : max s.msg_seq seq = s.msg_seq := Nat.max_eq_left h.le
  have hne : seq ≠ s.msg_seq := Nat.ne_of_lt h
  unfold on_order_book_update
  rw [hmax, if_pos hne]

theorem future_snapshot_step (s : TraderState) (seq : Nat)
    (ap av bp bv : List Int) (adm : List Bool) (hle : s.msg_seq ≤ seq)
    (hb : bp.headD 0 ≠ 0) (ha : ap.headD 0 ≠ 0) :
    (on_order_book_update s Instrument.future seq ap av bp bv adm).1 =
      { s with msg_seq := seq, future_bid := bp.headD 0, future_ask := ap.headD 0 } := by
  have hmax : max s.msg_seq seq = seq := Nat.max_eq_right hle
  unfold on_order_book_update
  simp only [hmax]
  split
  next hcond => exact absurd rfl hcond
  next =>
    split
    next hz =>
      exfalso
      rcases hz with hz | hz
      · exact hb hz
      · exact ha hz
    next =>
      simp only [trim_orders_st]

theorem book_update_etf (s : TraderState) (seq : Nat)
    (ap av bp bv : List Int) (adm : List Bool) (hle : s.msg_seq ≤ seq)
    (hb : bp.headD 0 ≠ 0) (ha : ap.headD 0 ≠ 0) :
    on_order_book_update s Instrument.etf seq ap av bp bv adm =
      (if ap.headD 0 < s.future_bid ∨ s.future_ask < bp.headD 0 then
        ((handle_arbitrage ⟨{ s with msg_seq := seq }, adm, []⟩ ap av bp bv).st,
          (handle_arbitrage ⟨{ s with msg_seq := seq }, adm, []⟩ ap av bp bv).out)
      else if s.future_ask < ap.headD 0 ∧ bp.headD 0 < s.future_bid then
        ((handle_market_making ⟨{ s with msg_seq := seq }, adm, []⟩ bp bv ap av).st,
          (handle_market_making ⟨{ s with msg_seq := seq }, adm, []⟩ bp bv ap av).out)
      else ({ s with msg_seq := seq }, [])) := by
  have hmax : max s.msg_seq seq = seq := Nat.max_eq_right hle
  have hb' : ¬ bp.head?.getD 0 = 0 := by simpa using hb
  have ha' : ¬ ap.head?.getD 0 = 0 := by simpa using ha
  unfold on_order_book_update
  rw [hmax]
  simp [hb', ha']
  split
  next => rfl
  next =>
    split
    next => rfl
    next => rfl

/-- C10: the sequence-number gate keeps one running maximum shared by both
instruments: any book update whose sequence number is below the running
maximum — regardless of which instrument set that maximum — is discarded
with no state mutation and no commands. -/
theorem global_sequence_gate (s : TraderState) (i : Instrument) (seq : Nat)
    (ap av bp bv : List Int) (adm : List Bool) (h : seq < s.msg_seq) :
    step s (Event.bookUpdate i seq ap av bp bv adm) = (s, []) :=
  gate_discard s i seq ap av bp bv adm h

/-- Witness for C10: after a FUTURE snapshot with sequence number 10, an ETF
snapshot with sequence number 5 — the highest yet seen for the ETF — is
discarded because the maximum is shared across instruments. -/
theorem global_sequence_gate_witness :
    step
      (runState initialState
        [Event.bookUpdate Instrument.future 10 [10100, 0, 0, 0, 0] [20, 0, 0, 0, 0]
          [10000, 0, 0, 0, 0] [20, 0, 0, 0, 0] []])
      (Event.bookUpdate Instrument.etf 5 [10300, 0, 0, 0, 0] [20, 0, 0, 0, 0]
        [10200, 0, 0, 0, 0] [20, 0, 0, 0, 0] []) =
    (runState initialState
      [Event.bookUpdate Instrument.future 10 [10100, 0, 0, 0, 0] [20, 0, 0, 0, 0]
        [10000, 0, 0, 0, 0] [20, 0, 0, 0, 0] []], []) :=
  global_sequence_gate _ _ _ _ _ _ _ _ (by decide)

/-- C6 (amended): the gate discards only snapshots whose sequence number is
strictly below the running maximum; a duplicate delivery carrying the current
maximum passes the gate and is processed again (a repeated future snapshot
re-applies its price update, a repeated ETF snapshot re-runs strategy
logic). -/
theorem snapshot_gate_strictness :
    (∀ (s : TraderState) (i : Instrument) (seq : Nat) (ap av bp bv : List Int) (adm : List Bool),
      seq < s.msg_seq →
      step s (Event.bookUpdate i seq ap av bp bv adm) = (s, [])) ∧
    (∀ (s : TraderState) (seq : Nat) (ap av bp bv : List Int) (adm : List Bool),
      s.msg_seq = seq → bp.headD 0 ≠ 0 → ap.headD 0 ≠ 0 →
      (step s (Event.bookUpdate Instrument.future seq ap av bp bv adm)).1 =
        { s with msg_seq := seq, future_bid := bp.headD 0, future_ask := ap.headD 0 }) := by
  constructor
  · intro s i seq ap av bp bv adm h
    exact gate_discard s i seq ap av bp bv adm h
  · intro s seq ap av bp bv adm heq hb ha
    exact future_snapshot_step s seq ap av bp bv adm heq.le hb ha

/-- Witness for C6's amended claim: a stale snapshot is a no-op, and a
duplicate of the running-maximum future snapshot is processed again. -/
theorem snapshot_gate_strictness_witness :
    step { initialState with msg_seq := 3 }
        (Event.bookUpdate Instrument.etf 2 [10100] [20] [10000] [20] []) =
      ({ initialState with msg_seq := 3 }, []) ∧
    (step { initialState with msg_seq := 2 }
        (Event.bookUpdate Instrument.future 2 [10100] [20] [10000] [20] [])).1 =
      { initialState with msg_seq := 2, future_bid := 10000, future_ask := 10100 } :=
  ⟨snapshot_gate_strictness.1 _ _ _ _ _ _ _ _ (by decide),
    snapshot_gate_strictness.2 _ _ _ _ _ _ _ (by decide) (by decide) (by decide)⟩

/-- Counterexample to C6 as stated: delivering the same ETF book snapshot
twice (same instrument, same sequence number) is not a no-op — the second
delivery again reaches the arbitrage detector, emits a command and mutates
state. -/
theorem duplicate_snapshot_cex :
    (step dupState dupSnapshot).2 =
      [Command.insertOrder 2 Side.bid 9900 20 Lifespan.fillAndKill] ∧
    (step dupState dupSnapshot).1 ≠ dupState := by
  constructor
  · decide
  · decide

/-- C9: before any future snapshot has been processed, `future_bid` and
`future_ask` are still 0, so every valid ETF snapshot is routed to the
overvalued arbitrage branch — market making never runs — and whenever
`min(bestBidVolume, position + ARBITRAGE_LIMIT)` is positive a fill-and-kill
sell at the ETF best bid is the only command sent. -/
theorem cold_start_overvalued (s : TraderState) (seq : Nat) (rest : List Bool)
    (askP askV bidP bidV : List Int)
    (hfb : s.future_bid = 0) (hfa : s.future_ask = 0)
    (hb : 0 < bidP.headD 0) (ha : 0 < askP.headD 0) (hseq : s.msg_seq ≤ seq) :
    (step s (Event.bookUpdate Instrument.etf seq askP askV bidP bidV (true :: rest))).2 =
      if 0 < min (bidV.headD 0) (s.position + ARBITRAGE_LIMIT) then
        [Command.insertOrder s.order_ids Side.ask (bidP.headD 0)
          (min (bidV.headD 0) (s.position + ARBITRAGE_LIMIT)) Lifespan.fillAndKill]
      else [] := by
  have key := book_update_etf s seq askP askV bidP bidV (true :: rest) hseq
    (by omega) (by omega)
  show (on_order_book_update s Instrument.etf seq askP askV bidP bidV (true :: rest)).2 = _
  rw [key]
  have harb : askP.headD 0 < s.future_bid ∨ s.future_ask < bidP.headD 0 := by
    right; omega
  rw [if_pos harb]
  show (handle_arbitrage ⟨{ s with msg_seq := seq }, true :: rest, []⟩ askP askV bidP bidV).out = _
  unfold handle_arbitrage
  dsimp only
  rw [if_neg (by omega : ¬ askP.headD 0 < s.future_bid)]
  rw [if_pos (by omega : s.future_ask < bidP.headD 0)]
  split
  next hvol => simp [send_ask_order, takeAdm]
  next hvol => rfl

/-- Witness for C9: from the initial state, a first ETF snapshot with best
bid 9900 (volume 15) triggers a fill-and-kill sell of 15 at 9900. -/
theorem cold_start_overvalued_witness :
    (step initialState
        (Event.bookUpdate Instrument.etf 1 [10000] [20] [9900] [15] [true])).2 =
      if 0 < min ((15 : Int)) (initialState.position + ARBITRAGE_LIMIT) then
        [Command.insertOrder initialState.order_ids Side.ask 9900
          (min 15 (initialState.position + ARBITRAGE_LIMIT)) Lifespan.fillAndKill]
      else [] :=
  cold_start_overvalued initialState 1 [] [10000] [20] [9900] [15] rfl rfl
    (by decide) (by decide) (by decide)

/-- C4: arbitrage sizing.  Undervalued (best ETF ask below the future bid):
a fill-and-kill buy at the best ask for `min(bestAskVolume, ARBITRAGE_LIMIT -
position)` is sent exactly when that volume is positive, and even a full fill
cannot push the position above `ARBITRAGE_LIMIT`.  Overvalued (best ETF bid
above the future ask): the mirrored fill-and-kill sell for
`min(bestBidVolume, position + ARBITRAGE_LIMIT)`, bounded below by
`-ARBITRAGE_LIMIT`. -/
theorem arbitrage_sizing (s : TraderState) (rest : List Bool)
    (askP askV bidP bidV : List Int) :
    (askP.headD 0 < s.future_bid →
      (0 < min (askV.headD 0) (ARBITRAGE_LIMIT - s.position) →
        (handle_arbitrage ⟨s, true :: rest, []⟩ askP askV bidP bidV).out =
          [Command.insertOrder s.order_ids Side.bid (askP.headD 0)
            (min (askV.headD 0) (ARBITRAGE_LIMIT - s.position)) Lifespan.fillAndKill] ∧
        s.position + min (askV.headD 0) (ARBITRAGE_LIMIT - s.position) ≤ ARBITRAGE_LIMIT) ∧
      (min (askV.headD 0) (ARBITRAGE_LIMIT - s.position) ≤ 0 →
        (handle_arbitrage ⟨s, true :: rest, []⟩ askP askV bidP bidV).out = [])) ∧
    (¬ askP.headD 0 < s.future_bid → s.future_ask < bidP.headD 0 →
      (0 < min (bidV.headD 0) (s.position + ARBITRAGE_LIMIT) →
        (handle_arbitrage ⟨s, true :: rest, []⟩ askP askV bidP bidV).out =
          [Command.insertOrder s.order_ids Side.ask (bidP.headD 0)
            (min (bidV.headD 0) (s.position + ARBITRAGE_LIMIT)) Lifespan.fillAndKill] ∧
        -ARBITRAGE_LIMIT ≤ s.position - min (bidV.headD 0) (s.position + ARBITRAGE_LIMIT)) ∧
      (min (bidV.headD 0) (s.position + ARBITRAGE_LIMIT) ≤ 0 →
        (handle_arbitrage ⟨s, true :: rest, []⟩ askP askV bidP bidV).out = [])) := by
  constructor
  · intro hcross
    constructor
    · intro hvol
      constructor
      · unfold handle_arbitrage
        dsimp only
        rw [if_pos hcross, if_pos hvol]
        simp [send_bid_order, takeAdm]
      · have : min (askV.headD 0) (ARBITRAGE_LIMIT - s.position) ≤
            ARBITRAGE_LIMIT - s.position := min_le_right _ _
        omega
    · intro hvol
      unfold handle_arbitrage
      dsimp only
      rw [if_pos hcross, if_neg (by omega)]
  · intro hnc hover
    constructor
    · intro hvol
      constructor
      · unfold handle_arbitrage
        dsimp only
        rw [if_neg hnc, if_pos hover, if_pos hvol]
        simp [send_ask_order, takeAdm]
      · have : min (bidV.headD 0) (s.position + ARBITRAGE_LIMIT) ≤
            s.position + ARBITRAGE_LIMIT := min_le_right _ _
        omega
    · intro hvol
      unfold handle_arbitrage
      dsimp only
      rw [if_neg hnc, if_pos hover, if_neg (by omega)]

/-- Witness for C4: the spec's own example — future bid 10000, best ETF ask
9900 with 15 lots, position 0 — yields one fill-and-kill buy of 15 at 9900. -/
theorem arbitrage_sizing_witness :
    (handle_arbitrage ⟨{ initialState with future_bid := 10000, future_ask := 10100 },
        [true], []⟩ [9900] [15] [9800] [10]).out =
      [Command.insertOrder 1 Side.bid 9900
        (min ((15 : Int)) (ARBITRAGE_LIMIT - (0 : Int))) Lifespan.fillAndKill] ∧
    (0 : Int) + min ((15 : Int)) (ARBITRAGE_LIMIT - (0 : Int)) ≤ ARBITRAGE_LIMIT :=
  (arbitrage_sizing { initialState with future_bid := 10000, future_ask := 10100 }
    [] [9900] [15] [9800] [10]).1 (by decide) |>.1 (by decide)

/-- C3 (amended): the hedge accompanying a fill on a ledger bid is always a
sell priced at `MIN_BID_NEAREST_TICK`, which is the smallest tick multiple
strictly above `MINIMUM_BID` (one tick above its floor, never the floor);
the hedge accompanying a fill on a ledger ask is always a buy priced at
`MAX_ASK_NEAREST_TICK`, the tick floor of `MAXIMUM_ASK` (not its ceiling). -/
theorem hedge_price_formulas :
    (∀ (s : TraderState) (id : Nat) (p v : Int), hasOrder s.bids id = true →
      ∀ cmd ∈ (on_order_filled s id p v).2,
        ∃ hid, cmd = Command.hedgeOrder hid Side.ask MIN_BID_NEAREST_TICK v) ∧
    (∀ (s : TraderState) (id : Nat) (p v : Int),
      hasOrder s.bids id = false → hasOrder s.asks id = true →
      ∀ cmd ∈ (on_order_filled s id p v).2,
        ∃ hid, cmd = Command.hedgeOrder hid Side.bid MAX_ASK_NEAREST_TICK v) ∧
    (MIN_BID_NEAREST_TICK % TICK_SIZE_IN_CENTS = 0 ∧
      MINIMUM_BID < MIN_BID_NEAREST_TICK ∧
      MIN_BID_NEAREST_TICK ≤ MINIMUM_BID + TICK_SIZE_IN_CENTS) ∧
    (MAX_ASK_NEAREST_TICK % TICK_SIZE_IN_CENTS = 0 ∧
      MAX_ASK_NEAREST_TICK ≤ MAXIMUM_ASK ∧
      MAXIMUM_ASK < MAX_ASK_NEAREST_TICK + TICK_SIZE_IN_CENTS) := by
  refine ⟨?_, ?_, by decide, by decide⟩
  · intro s id p v h cmd hmem
    unfold on_order_filled at hmem
    rw [if_pos h] at hmem
    simp [send_hedge_order] at hmem
    exact ⟨s.order_ids, hmem⟩
  · intro s id p v hnb h cmd hmem
    unfold on_order_filled at hmem
    rw [if_neg (by simp [hnb]), if_pos h] at hmem
    simp [send_hedge_order] at hmem
    exact ⟨s.order_ids, hmem⟩

/-- Witness for C3's amended claim: a concrete fill on each side. -/
theorem hedge_price_formulas_witness :
    (∀ cmd ∈ (on_order_filled { initialState with
        order_ids := 2, bids := [(1, 5000, 20)] } 1 5000 20).2,
      ∃ hid, cmd = Command.hedgeOrder hid Side.ask MIN_BID_NEAREST_TICK 20) ∧
    (∀ cmd ∈ (on_order_filled { initialState with
        order_ids := 2, asks := [(1, 5000, 20)] } 1 5000 20).2,
      ∃ hid, cmd = Command.hedgeOrder hid Side.bid MAX_ASK_NEAREST_TICK 20) :=
  ⟨hedge_price_formulas.1 _ 1 5000 20 (by decide),
    hedge_price_formulas.2.1 _ 1 5000 20 (by decide) (by decide)⟩

/-- Counterexample to C3 as stated: the hedge-sell price is 100, not the
nearest-tick floor of `MINIMUM_BID` (which is 0), and the hedge-buy price is
2147483600, not the nearest-tick ceiling of `MAXIMUM_ASK` (2147483700). -/
theorem hedge_price_cex :
    (on_order_filled { initialState with
        order_ids := 2, bids := [(1, 5000, 20)] } 1 5000 20).2 =
      [Command.hedgeOrder 2 Side.ask 100 20] ∧
    specHedgeSellPrice = 0 ∧ MIN_BID_NEAREST_TICK = 100 ∧
    (on_order_filled { initialState with
        order_ids := 2, asks := [(1, 5000, 20)] } 1 5000 20).2 =
      [Command.hedgeOrder 2 Side.bid 2147483600 20] ∧
    specHedgeBuyPrice = 2147483700 ∧ MAX_ASK_NEAREST_TICK = 2147483600 := by
  refine ⟨by decide, by decide, by decide, by decide, by decide, by decide⟩

/-! ### The rate-admission controller over rational time -/

theorem countIn_cons (x : ℚ) (l : List ℚ) (b : ℚ) :
    countIn (x :: l) b =
      (if b - 101 / 100 ≤ x ∧ x ≤ b then 1 else 0) + countIn l b := by
  unfold countIn
  rw [List.filter_cons]
  by_cases h : b - 101 / 100 ≤ x ∧ x ≤ b
  · rw [if_pos h]
    have hb : (decide (b - 101 / 100 ≤ x) && decide (x ≤ b)) = true := by
      simp [h.1, h.2]
    rw [if_pos hb]
    simp [Nat.add_comm]
  · rw [if_neg h]
    have hb : ¬ ((decide (b - 101 / 100 ≤ x) && decide (x ≤ b)) = true) := by
      simpa using h
    rw [if_neg hb]
    simp

theorem countIn_append (l1 l2 : List ℚ) (b : ℚ) :
    countIn (l1 ++ l2) b = countIn l1 b + countIn l2 b := by
  simp [countIn, List.filter_append]

theorem countIn_le_length (l : List ℚ) (b : ℚ) : countIn l b ≤ l.length :=
  List.length_filter_le _ _

theorem countIn_dropWhile (w : List ℚ) (t b : ℚ) (h : t ≤ b) :
    countIn w b = countIn (w.dropWhile (fun x => decide (x < t - 101 / 100))) b := by
  conv_lhs =>
    rw [← List.takeWhile_append_dropWhile (fun x => decide (x < t - 101 / 100)) w]
  rw [countIn_append]
  have hz : countIn (w.takeWhile (fun x => decide (x < t - 101 / 100))) b = 0 := by
    rw [countIn, List.length_eq_zero, List.filter_eq_nil_iff]
    intro x hx
    have hp : x < t - 101 / 100 := by simpa using List.mem_takeWhile_imp hx
    simp only [Bool.and_eq_true, decide_eq_true_eq, not_and]
    intro hbx
    exfalso
    linarith
  omega

theorem runCalls_accept_mem :
    ∀ (ts w : List ℚ) (x : ℚ), x ∈ (runCalls w ts).2 → x ∈ ts := by
  intro ts
  induction ts with
  | nil => intro w x hx; simp [runCalls] at hx
  | cons t r ih =>
    intro w x hx
    simp only [runCalls] at hx
    split at hx
    · rcases List.mem_cons.mp hx with h | h
      · exact h ▸ List.mem_cons_self _ _
      · exact List.mem_cons_of_mem _ (ih _ _ h)
    · exact List.mem_cons_of_mem _ (ih _ _ hx)

theorem runCalls_accepted_eq (w : List ℚ) (t : ℚ) (r : List ℚ) (w' : List ℚ)
    (h : check_message_limit w t = (true, w')) :
    (runCalls w (t :: r)).2 = t :: (runCalls w' r).2 := by
  simp [runCalls, h]

theorem runCalls_refused_eq (w : List ℚ) (t : ℚ) (r : List ℚ) (w' : List ℚ)
    (h : check_message_limit w t = (false, w')) :
    (runCalls w (t :: r)).2 = (runCalls w' r).2 := by
  simp [runCalls, h]

theorem window_bound_aux (ts : List ℚ) :
    ∀ (w : List ℚ) (b : ℚ), List.Sorted (· ≤ ·) ts → w.length ≤ 50 →
      countIn (runCalls w ts).2 b + countIn w b ≤ 50 := by
  induction ts with
  | nil =>
    intro w b _ hw
    have h1 : countIn (runCalls w []).2 b = 0 := by simp [runCalls, countIn]
    have h2 := countIn_le_length w b
    omega
  | cons t r ih =>
    intro w b hs hw
    obtain ⟨hall, hr⟩ := List.sorted_cons.mp hs
    by_cases hbt : b < t
    · have hacc : countIn (runCalls w (t :: r)).2 b = 0 := by
        rw [countIn, List.length_eq_zero, List.filter_eq_nil_iff]
        intro x hx
        have hmem := runCalls_accept_mem (t :: r) w x hx
        have hbx : b < x := by
          rcases List.mem_cons.mp hmem with h | h
          · exact h ▸ hbt
          · exact lt_of_lt_of_le hbt (hall x h)
        simp only [Bool.and_eq_true, decide_eq_true_eq, not_and]
        intro _
        exact not_le.mpr hbx
      have h2 := countIn_le_length w b
      omega
    · push_neg at hbt
      have hcw : countIn w b =
          countIn (w.dropWhile (fun x => decide (x < t - 101 / 100))) b :=
        countIn_dropWhile w t b hbt
      have hlen1 : (w.dropWhile (fun x => decide (x < t - 101 / 100))).length ≤ w.length :=
        (List.dropWhile_sublist _).length_le
      by_cases hfull : (w.dropWhile (fun x => decide (x < t - 101 / 100))).length = 50
      · have hchk : check_message_limit w t =
            (false, w.dropWhile (fun x => decide (x < t - 101 / 100))) := by
          unfold check_message_limit
          rw [if_pos hfull]
        rw [runCalls_refused_eq w t r _ hchk]
        have hrec := ih (w.dropWhile (fun x => decide (x < t - 101 / 100))) b hr (by omega)
        omega
      · have hchk : check_message_limit w t =
            (true, w.dropWhile (fun x => decide (x < t - 101 / 100)) ++ [t]) := by
          unfold check_message_limit
          rw [if_neg hfull]
        rw [runCalls_accepted_eq w t r _ hchk]
        rw [countIn_cons]
        have hlen2 : (w.dropWhile (fun x => decide (x < t - 101 / 100)) ++ [t]).length ≤ 50 := by
          simp only [List.length_append, List.length_cons, List.length_nil]
          omega
        have hrec := ih (w.dropWhile (fun x => decide (x < t - 101 / 100)) ++ [t]) b hr hlen2
        rw [countIn_append] at hrec
        have ht1 : countIn [t] b = if b - 101 / 100 ≤ t ∧ t ≤ b then 1 else 0 := by
          rw [countIn_cons]
          simp [countIn]
        rw [ht1] at hrec
        by_cases hcond : b - 101 / 100 ≤ t ∧ t ≤ b
        · rw [if_pos hcond] at hrec ⊢
          omega
        · rw [if_neg hcond] at hrec ⊢
          omega

theorem check_aged (w : List ℚ) (t0 t : ℚ) (hw : ∀ x ∈ w, x ≤ t0)
    (ht : t0 + 102 / 100 ≤ t) : (check_message_limit w t).1 = true := by
  have hnil : w.dropWhile (fun x => decide (x < t - 101 / 100)) = [] := by
    rw [List.dropWhile_eq_nil_iff]
    intro x hx
    have := hw x hx
    simp only [decide_eq_true_eq]
    linarith
  unfold check_message_limit
  rw [hnil]
  simp

theorem check_refused_window (w : List ℚ) (t : ℚ)
    (h : (check_message_limit w t).1 = false) :
    (check_message_limit w t).2 =
      w.dropWhile (fun x => decide (x < t - 101 / 100)) := by
  unfold check_message_limit at h ⊢
  by_cases hfull : (w.dropWhile (fun x => decide (x < t - 101 / 100))).length = 50
  · rw [if_pos hfull]
  · rw [if_neg hfull] at h
    simp at h

/-- C5: the rate-admission controller.  (i) Along any non-decreasing sequence
of call times starting from an empty window, at most 50 calls are admitted
inside any trailing 1.01-second window.  (ii) When the pruned window already
holds 50 timestamps the call refuses without appending.  (iii) An attempt
made 1.02 seconds after a refused attempt is admitted, the old entries having
aged out. -/
theorem rate_limit_window :
    (∀ (ts : List ℚ) (b : ℚ), List.Sorted (· ≤ ·) ts →
      countIn (runCalls [] ts).2 b ≤ 50) ∧
    (∀ (w : List ℚ) (t : ℚ),
      (w.dropWhile (fun x => decide (x < t - 101 / 100))).length = 50 →
      check_message_limit w t =
        (false, w.dropWhile (fun x => decide (x < t - 101 / 100)))) ∧
    (∀ (w : List ℚ) (t : ℚ), (∀ x ∈ w, x ≤ t) →
      (check_message_limit w t).1 = false →
      (check_message_limit (check_message_limit w t).2 (t + 102 / 100)).1 = true) := by
  refine ⟨?_, ?_, ?_⟩
  · intro ts b hs
    have := window_bound_aux ts [] b hs (by simp)
    have hz : countIn [] b = 0 := rfl
    omega
  · intro w t h
    unfold check_message_limit
    rw [if_pos h]
  · intro w t hw href
    rw [check_refused_window w t href]
    apply check_aged _ t _ _ le_rfl
    intro x hx
    exact hw x ((List.dropWhile_sublist _).subset hx)

/-- Witness for C5: a single call is inside the bound; a full window of 50
just-sent timestamps refuses a 51st immediate attempt; 1.02 s later the
attempt is admitted. -/
theorem rate_limit_window_witness :
    countIn (runCalls [] [(0 : ℚ)]).2 0 ≤ 50 ∧
    check_message_limit (List.replicate 50 (0 : ℚ)) 0 =
      (false, (List.replicate 50 (0 : ℚ)).dropWhile
        (fun x => decide (x < (0 : ℚ) - 101 / 100))) ∧
    (check_message_limit (check_message_limit (List.replicate 50 (0 : ℚ)) 0).2
      ((0 : ℚ) + 102 / 100)).1 = true := by
  have hdw : (List.replicate 50 (0 : ℚ)).dropWhile
      (fun x => decide (x < (0 : ℚ) - 101 / 100)) = List.replicate 50 (0 : ℚ) := by
    conv_lhs => rw [List.replicate_succ]
    rw [List.dropWhile_cons, if_neg (by norm_num)]
    rw [← List.replicate_succ]
  have hfull : ((List.replicate 50 (0 : ℚ)).dropWhile
      (fun x => decide (x < (0 : ℚ) - 101 / 100))).length = 50 := by
    rw [hdw]
    simp
  have h2 := rate_limit_window.2.1 (List.replicate 50 (0 : ℚ)) 0 hfull
  refine ⟨rate_limit_window.1 [0] 0 (by simp), h2, ?_⟩
  apply rate_limit_window.2.2
  · intro x hx
    exact le_of_eq (List.eq_of_mem_replicate hx)
  · rw [h2]

/-! ### Termination of the blocking hedge admission loop -/

theorem hedgeTries_succeeds :
    ∀ (fuel : Nat) (w : List ℚ) (t t0 : ℚ), 0 < fuel →
      (∀ x ∈ w, x ≤ t0) → t0 ≤ t →
      t0 + 102 / 100 ≤ t + ((fuel : ℚ) - 1) / 10 →
      (hedgeTries w t fuel).isSome = true := by
  intro fuel
  induction fuel with
  | zero => intro w t t0 h; exact absurd h (by omega)
  | succ n ih =>
    intro w t t0 _ hw ht hbound
    by_cases hok : (check_message_limit w t).1 = true
    · simp [hedgeTries, hok]
    · have hok' : (check_message_limit w t).1 = false := by
        simpa using hok
      have hne : ¬ ((check_message_limit w t).1 = true) := by
        simp [hok']
      have hw' : ∀ x ∈ (check_message_limit w t).2, x ≤ t0 := by
        intro x hx
        rw [check_refused_window w t hok'] at hx
        exact hw x ((List.dropWhile_sublist _).subset hx)
      cases n with
      | zero =>
        exfalso
        have hsucc := check_aged w t0 t hw (by push_cast at hbound; linarith)
        rw [hsucc] at hok'
        simp at hok'
      | succ m =>
        have hrec := ih (check_message_limit w t).2 (t + 1 / 10) t0 (Nat.succ_pos m)
          hw' (by linarith) (by push_cast at hbound ⊢; linarith)
        show (if (check_message_limit w t).1 = true then some 0 else
          (hedgeTries (check_message_limit w t).2 (t + 1 / 10) (m + 1)).map
            (fun k => k + 1)).isSome = true
        rw [if_neg hne]
        simpa using hrec

/-- C2: every fill callback for an order in the ledger sends exactly one
hedge order (and nothing else) on the opposite side for the filled volume
before the handler returns, and the blocking admission used for hedge sends
cannot drop it: from any window of past timestamps, the retry loop (0.1-second
steps) is admitted within 12 attempts, because the whole window has aged out
1.1 seconds later. -/
theorem hedge_on_fill :
    (∀ (s : TraderState) (id : Nat) (p v : Int), hasOrder s.bids id = true →
      (on_order_filled s id p v).2 =
        [Command.hedgeOrder s.order_ids Side.ask MIN_BID_NEAREST_TICK v]) ∧
    (∀ (s : TraderState) (id : Nat) (p v : Int),
      hasOrder s.bids id = false → hasOrder s.asks id = true →
      (on_order_filled s id p v).2 =
        [Command.hedgeOrder s.order_ids Side.bid MAX_ASK_NEAREST_TICK v]) ∧
    (∀ (w : List ℚ) (t : ℚ), (∀ x ∈ w, x ≤ t) →
      (hedgeTries w t 12).isSome = true) := by
  refine ⟨?_, ?_, ?_⟩
  · intro s id p v h
    unfold on_order_filled
    rw [if_pos h]
    simp [send_hedge_order]
  · intro s id p v hnb h
    unfold on_order_filled
    rw [if_neg (by simp [hnb]), if_pos h]
    simp [send_hedge_order]
  · intro w t hw
    exact hedgeTries_succeeds 12 w t t (by omega) hw le_rfl (by norm_num)

/-- Witness for C2: a concrete fill on a resting bid emits exactly the hedge
sell, and the blocking loop succeeds from a saturated window. -/
theorem hedge_on_fill_witness :
    (on_order_filled { initialState with
      order_ids := 2, bids := [(1, 5000, 20)] } 1 5000 20).2 =
      [Command.hedgeOrder 2 Side.ask MIN_BID_NEAREST_TICK 20] ∧
    (hedgeTries (List.replicate 50 (0 : ℚ)) 0 12).isSome = true :=
  ⟨hedge_on_fill.1 _ 1 5000 20 (by decide),
    hedge_on_fill.2.2 (List.replicate 50 (0 : ℚ)) 0
      (fun x hx => le_of_eq (List.eq_of_mem_replicate hx))⟩

/-! ### The clear-book cutoffs and cancellation sweep -/

theorem cutoffPrice_eq_find :
    ∀ (vols prices : List Int) (acc dflt : Int), prices.length = vols.length →
      cutoffPrice prices vols acc dflt =
        (match (List.range vols.length).find?
            (fun i => decide (3 * LOT_SIZE ≤ acc + ((vols.take (i + 1)).sum))) with
        | some i => prices.getD i 0
        | none => dflt) := by
  intro vols
  induction vols with
  | nil =>
    intro prices acc dflt hlen
    have hp : prices = [] := List.length_eq_zero.mp (by simpa using hlen)
    subst hp
    simp [cutoffPrice]
  | cons v vs ih =>
    intro prices acc dflt hlen
    cases prices with
    | nil => simp at hlen
    | cons p ps =>
      have hlen' : ps.length = vs.length := by simpa using hlen
      show (if 3 * LOT_SIZE ≤ acc + v then p else cutoffPrice ps vs (acc + v) dflt) = _
      rw [show (v :: vs).length = vs.length + 1 from rfl, List.range_succ_eq_map]
      by_cases hc : 3 * LOT_SIZE ≤ acc + v
      · rw [if_pos hc]
        rw [List.find?_cons_of_pos _ (by simpa using hc)]
        simp
      · rw [if_neg hc]
        rw [List.find?_cons_of_neg _ (by simpa using hc)]
        rw [List.find?_map _]
        have hpred : ((fun i => decide (3 * LOT_SIZE ≤ acc + (((v :: vs).take (i + 1)).sum)))
            ∘ Nat.succ) = (fun i => decide (3 * LOT_SIZE ≤ (acc + v) + ((vs.take (i + 1)).sum))) := by
          funext i
          show decide (3 * LOT_SIZE ≤ acc + (((v :: vs).take (i + 1 + 1)).sum)) = _
          rw [List.take_succ_cons]
          apply decide_eq_decide.mpr
          rw [List.sum_cons]
          constructor <;> intro h <;> linarith
        rw [hpred]
        rw [ih ps (acc + v) dflt hlen']
        cases hfind : (List.range vs.length).find?
            (fun i => decide (3 * LOT_SIZE ≤ (acc + v) + ((vs.take (i + 1)).sum))) with
        | none => simp
        | some i => simp

theorem cutoffPrice_spec (prices vols : List Int) (dflt : Int)
    (h : prices.length = vols.length) :
    cutoffPrice prices vols 0 dflt = cutoffSpec prices vols dflt := by
  rw [cutoffPrice_eq_find vols prices 0 dflt h]
  unfold cutoffSpec
  have hp : (fun i => decide (3 * LOT_SIZE ≤ (0 : Int) + ((vols.take (i + 1)).sum))) =
      (fun i => decide (3 * LOT_SIZE ≤ ((vols.take (i + 1)).sum))) := by
    funext i
    rw [zero_add]
  rw [hp]

theorem cancelWhere_out_aux (l : List (Nat × Int × Int)) (cond : Int → Bool) :
    ∀ (st : TraderState) (adm : List Bool) (out : List Command),
      (∀ b ∈ adm, b = true) →
      (l.filter (fun e => cond e.2.1)).length ≤ adm.length →
      (cancelWhere ⟨st, adm, out⟩ l cond).out =
        out ++ (l.filter (fun e => cond e.2.1)).map (fun e => Command.cancelOrder e.1) ∧
      (∀ b ∈ (cancelWhere ⟨st, adm, out⟩ l cond).adm, b = true) ∧
      adm.length = (cancelWhere ⟨st, adm, out⟩ l cond).adm.length +
        (l.filter (fun e => cond e.2.1)).length := by
  induction l with
  | nil =>
    intro st adm out hall hlen
    exact ⟨by simp [cancelWhere], hall, by simp [cancelWhere]⟩
  | cons e r ih =>
    intro st adm out hall hlen
    by_cases hc : cond e.2.1 = true
    · have hfil : ((e :: r).filter (fun x => cond x.2.1)) =
          e :: r.filter (fun x => cond x.2.1) := by
        rw [List.filter_cons]
        simp [hc]
      cases adm with
      | nil =>
        rw [hfil] at hlen
        simp at hlen
      | cons b rest =>
        have hb : b = true := hall b (List.mem_cons_self b rest)
        subst hb
        have hstep : cancelWhere ⟨st, true :: rest, out⟩ (e :: r) cond =
            cancelWhere ⟨st, rest, out ++ [Command.cancelOrder e.1]⟩ r cond := by
          unfold cancelWhere
          rw [List.foldl_cons, if_pos hc]
          rfl
        have hall' : ∀ x ∈ rest, x = true := fun x hx =>
          hall x (List.mem_cons_of_mem _ hx)
        have hlen' : (r.filter (fun x => cond x.2.1)).length ≤ rest.length := by
          rw [hfil] at hlen
          simpa using hlen
        obtain ⟨h1, h2, h3⟩ := ih st rest (out ++ [Command.cancelOrder e.1]) hall' hlen'
        rw [hstep]
        refine ⟨?_, h2, ?_⟩
        · rw [h1, hfil]
          simp
        · rw [hfil]
          simp only [List.length_cons]
          omega
    · have hfil : ((e :: r).filter (fun x => cond x.2.1)) =
          r.filter (fun x => cond x.2.1) := by
        rw [List.filter_cons]
        simp [hc]
      have hstep : cancelWhere ⟨st, adm, out⟩ (e :: r) cond =
          cancelWhere ⟨st, adm, out⟩ r cond := by
        unfold cancelWhere
        rw [List.foldl_cons, if_neg hc]
      rw [hstep, hfil]
      exact ih st adm out hall (hfil ▸ hlen)

theorem cancelWhere_out (l : List (Nat × Int × Int)) (cond : Int → Bool) (c : SendCtx)
    (hall : ∀ b ∈ c.adm, b = true)
    (hlen : (l.filter (fun e => cond e.2.1)).length ≤ c.adm.length) :
    (cancelWhere c l cond).out =
      c.out ++ (l.filter (fun e => cond e.2.1)).map (fun e => Command.cancelOrder e.1) ∧
    (∀ b ∈ (cancelWhere c l cond).adm, b = true) ∧
    c.adm.length = (cancelWhere c l cond).adm.length +
      (l.filter (fun e => cond e.2.1)).length :=
  cancelWhere_out_aux l cond c.st c.adm c.out hall hlen

/-- C8: `clear_book` computes each cutoff as the price of the first level,
best-first, at which cumulative reported volume reaches `3 * LOT_SIZE`
(defaulting to the worst visible level, the 5th reported entry), and — when
the admission budget suffices — requests cancellation of exactly the resting
bids priced at or below the bid cutoff followed by the resting asks priced at
or above the ask cutoff. -/
theorem clear_book_cutoffs (s : TraderState) (adm : List Bool) (ap av bp bv : List Int)
    (hap : ap.length = 5) (hav : av.length = 5) (hbp : bp.length = 5) (hbv : bv.length = 5)
    (hall : ∀ b ∈ adm, b = true)
    (hlen : (s.bids.filter (fun e => decide (e.2.1 ≤ cutoffSpec bp bv (bp.getLastD 0)))).length
          + (s.asks.filter (fun e => decide (cutoffSpec ap av (ap.getLastD 0) ≤ e.2.1))).length
          ≤ adm.length) :
    (clear_book ⟨s, adm, []⟩ ap bp av bv).out =
      (s.bids.filter (fun e => decide (e.2.1 ≤ cutoffSpec bp bv (bp.getLastD 0)))).map
        (fun e => Command.cancelOrder e.1) ++
      (s.asks.filter (fun e => decide (cutoffSpec ap av (ap.getLastD 0) ≤ e.2.1))).map
        (fun e => Command.cancelOrder e.1) := by
  have hca : cutoffPrice ap av 0 (ap.getLastD 0) = cutoffSpec ap av (ap.getLastD 0) :=
    cutoffPrice_spec ap av _ (by omega)
  have hcb : cutoffPrice bp bv 0 (bp.getLastD 0) = cutoffSpec bp bv (bp.getLastD 0) :=
    cutoffPrice_spec bp bv _ (by omega)
  unfold clear_book
  simp only [hca, hcb]
  obtain ⟨h1, h2, h3⟩ := cancelWhere_out s.bids
    (fun bid => decide (bid ≤ cutoffSpec bp bv (bp.getLastD 0))) ⟨s, adm, []⟩ hall
    (by simp only []; omega)
  set c1 := cancelWhere ⟨s, adm, []⟩ s.bids
    (fun bid => decide (bid ≤ cutoffSpec bp bv (bp.getLastD 0))) with hc1
  have hst : c1.st = s := cancelWhere_st ⟨s, adm, []⟩ _ _
  rw [hst]
  have h3' : adm.length = c1.adm.length +
      (s.bids.filter (fun e => decide (e.2.1 ≤ cutoffSpec bp bv (bp.getLastD 0)))).length := h3
  obtain ⟨h4, _, _⟩ := cancelWhere_out s.asks
    (fun ask => decide (cutoffSpec ap av (ap.getLastD 0) ≤ ask)) c1 h2
    (by simp only []; omega)
  rw [h4, h1]
  simp

/-- Witness for C8: ask volumes 10, 20, 30 reach 60 at the third level (price
120), bid volumes never reach 60 so the bid cutoff defaults to the 5th level
(price 50); the resting bid at 50 and the resting ask at 200 are cancelled,
in that order. -/
theorem clear_book_cutoffs_witness :
    (clear_book ⟨{ initialState with
        bids := [(1, 50, 20)], asks := [(2, 200, 20)] }, [true, true], []⟩
      [100, 110, 120, 130, 140] [90, 80, 70, 60, 50]
      [10, 20, 30, 5, 5] [10, 10, 10, 10, 10]).out =
      [Command.cancelOrder 1, Command.cancelOrder 2] := by
  have h := clear_book_cutoffs
    { initialState with bids := [(1, 50, 20)], asks := [(2, 200, 20)] }
    [true, true] [100, 110, 120, 130, 140] [10, 20, 30, 5, 5]
    [90, 80, 70, 60, 50] [10, 10, 10, 10, 10]
    (by decide) (by decide) (by decide) (by decide) (by decide) (by decide)
  rw [h]
  decide

/-! ### The market-making quoter -/

theorem send_cancel_out_cases (c : SendCtx) (id : Nat) :
    (send_cancel_order c id).out = c.out ∨
    (send_cancel_order c id).out = c.out ++ [Command.cancelOrder id] := by
  cases h : c.adm with
  | nil => left; simp [send_cancel_order, takeAdm, h]
  | cons b r =>
    cases b
    · left; simp [send_cancel_order, takeAdm, h]
    · right; simp [send_cancel_order, takeAdm, h]

theorem cancelWhere_cancels (l : List (Nat × Int × Int)) (cond : Int → Bool) :
    ∀ (c : SendCtx), ∃ new, (cancelWhere c l cond).out = c.out ++ new ∧
      ∀ cmd ∈ new, ∃ id, cmd = Command.cancelOrder id := by
  induction l with
  | nil => intro c; exact ⟨[], by simp [cancelWhere], by simp⟩
  | cons e r ih =>
    intro c
    have hstep : cancelWhere c (e :: r) cond =
        cancelWhere (if cond e.2.1 = true then send_cancel_order c e.1 else c) r cond := by
      unfold cancelWhere
      rw [List.foldl_cons]
    rw [hstep]
    by_cases hc : cond e.2.1 = true
    · rw [if_pos hc]
      obtain ⟨new, h1, h2⟩ := ih (send_cancel_order c e.1)
      rcases send_cancel_out_cases c e.1 with ho | ho
      · exact ⟨new, by rw [h1, ho], h2⟩
      · refine ⟨Command.cancelOrder e.1 :: new, ?_, ?_⟩
        · rw [h1, ho]
          simp
        · intro cmd hcmd
          rcases List.mem_cons.mp hcmd with hh | hh
          · exact ⟨e.1, hh⟩
          · exact h2 cmd hh
    · rw [if_neg hc]
      exact ih c

theorem clear_book_cancels_only (c : SendCtx) (ap bp av bv : List Int) :
    ∃ new, (clear_book c ap bp av bv).out = c.out ++ new ∧
      ∀ cmd ∈ new, ∃ id, cmd = Command.cancelOrder id := by
  unfold clear_book
  obtain ⟨n1, h1, h2⟩ := cancelWhere_cancels c.st.bids
    (fun bid => decide (bid ≤ cutoffPrice bp bv 0 (bp.getLastD 0))) c
  obtain ⟨n2, h3, h4⟩ := cancelWhere_cancels
    ((cancelWhere c c.st.bids
      (fun bid => decide (bid ≤ cutoffPrice bp bv 0 (bp.getLastD 0)))).st.asks)
    (fun ask => decide (cutoffPrice ap av 0 (ap.getLastD 0) ≤ ask))
    (cancelWhere c c.st.bids (fun bid => decide (bid ≤ cutoffPrice bp bv 0 (bp.getLastD 0))))
  refine ⟨n1 ++ n2, ?_, ?_⟩
  · rw [h3, h1]
    simp
  · intro cmd hcmd
    rcases List.mem_append.mp hcmd with hh | hh
    · exact h2 cmd hh
    · exact h4 cmd hh

theorem mem_priceRange (a b x : Int) (hx : x ∈ priceRange a b) :
    a ≤ x ∧ x < b ∧ (x - a) % TICK_SIZE_IN_CENTS = 0 := by
  rw [priceRange, List.mem_map] at hx
  obtain ⟨k, hk, rfl⟩ := hx
  have hk2 := List.mem_range.mp hk
  unfold TICK_SIZE_IN_CENTS
  refine ⟨by omega, by omega, by omega⟩

theorem mmAskLoop_st (prices : List Int) :
    ∀ (c : SendCtx) (cnt : Int),
      (mmAskLoop c cnt prices).st.bids = c.st.bids ∧
      (mmAskLoop c cnt prices).st.position = c.st.position ∧
      (mmAskLoop c cnt prices).st.future_bid = c.st.future_bid ∧
      (mmAskLoop c cnt prices).st.future_ask = c.st.future_ask ∧
      (mmAskLoop c cnt prices).st.msg_seq = c.st.msg_seq ∧
      c.st.order_ids ≤ (mmAskLoop c cnt prices).st.order_ids := by
  induction prices with
  | nil => intro c cnt; exact ⟨rfl, rfl, rfl, rfl, rfl, le_refl _⟩
  | cons i rest ih =>
    intro c cnt
    have hstep : mmAskLoop c cnt (i :: rest) =
        if i ∉ orderValues c.st.asks ∧ 0 < cnt then
          mmAskLoop (send_ask_order c i LOT_SIZE Lifespan.goodForDay) (cnt - 1) rest
        else mmAskLoop c cnt rest := rfl
    rw [hstep]
    split
    · obtain ⟨h1, h2, h3, h4, h5, h6⟩ := ih (send_ask_order c i LOT_SIZE Lifespan.goodForDay) (cnt - 1)
      rcases send_ask_cases c i LOT_SIZE Lifespan.goodForDay with ⟨hst, _⟩ | ⟨hst, _⟩
      · rw [hst] at h1 h2 h3 h4 h5 h6
        exact ⟨h1, h2, h3, h4, h5, h6⟩
      · rw [hst] at h1 h2 h3 h4 h5 h6
        dsimp only at h1 h2 h3 h4 h5 h6
        exact ⟨h1, h2, h3, h4, h5, by omega⟩
    · exact ih c cnt

theorem mmBidLoop_st (prices : List Int) :
    ∀ (c : SendCtx) (cnt : Int),
      (mmBidLoop c cnt prices).st.asks = c.st.asks ∧
      (mmBidLoop c cnt prices).st.position = c.st.position ∧
      (mmBidLoop c cnt prices).st.future_bid = c.st.future_bid ∧
      (mmBidLoop c cnt prices).st.future_ask = c.st.future_ask ∧
      (mmBidLoop c cnt prices).st.msg_seq = c.st.msg_seq ∧
      c.st.order_ids ≤ (mmBidLoop c cnt prices).st.order_ids := by
  induction prices with
  | nil => intro c cnt; exact ⟨rfl, rfl, rfl, rfl, rfl, le_refl _⟩
  | cons i rest ih =>
    intro c cnt
    have hstep : mmBidLoop c cnt (i :: rest) =
        if i ∉ orderValues c.st.bids ∧ 0 < cnt then
          mmBidLoop (send_bid_order c i LOT_SIZE Lifespan.goodForDay) (cnt - 1) rest
        else mmBidLoop c cnt rest := rfl
    rw [hstep]
    split
    · obtain ⟨h1, h2, h3, h4, h5, h6⟩ := ih (send_bid_order c i LOT_SIZE Lifespan.goodForDay) (cnt - 1)
      rcases send_bid_cases c i LOT_SIZE Lifespan.goodForDay with ⟨hst, _⟩ | ⟨hst, _⟩
      · rw [hst] at h1 h2 h3 h4 h5 h6
        exact ⟨h1, h2, h3, h4, h5, h6⟩
      · rw [hst] at h1 h2 h3 h4 h5 h6
        dsimp only at h1 h2 h3 h4 h5 h6
        exact ⟨h1, h2, h3, h4, h5, by omega⟩
    · exact ih c cnt

theorem mmAskLoop_out (prices : List Int) :
    ∀ (c : SendCtx) (cnt : Int),
      ∃ new, (mmAskLoop c cnt prices).out = c.out ++ new ∧
        ((new.length : Int) ≤ max cnt 0) ∧
        ∀ cmd ∈ new, ∃ id pr,
          cmd = Command.insertOrder id Side.ask pr LOT_SIZE Lifespan.goodForDay ∧
          pr ∈ prices ∧ pr ∉ orderValues c.st.asks := by
  induction prices with
  | nil =>
    intro c cnt
    exact ⟨[], by simp [mmAskLoop], by simp [le_max_iff], by simp⟩
  | cons i rest ih =>
    intro c cnt
    have hstep : mmAskLoop c cnt (i :: rest) =
        if i ∉ orderValues c.st.asks ∧ 0 < cnt then
          mmAskLoop (send_ask_order c i LOT_SIZE Lifespan.goodForDay) (cnt - 1) rest
        else mmAskLoop c cnt rest := rfl
    rw [hstep]
    by_cases hcond : i ∉ orderValues c.st.asks ∧ 0 < cnt
    · rw [if_pos hcond]
      obtain ⟨new, hn1, hn2, hn3⟩ := ih (send_ask_order c i LOT_SIZE Lifespan.goodForDay) (cnt - 1)
      rcases send_ask_cases c i LOT_SIZE Lifespan.goodForDay with ⟨hst, hout⟩ | ⟨hst, hout⟩
      · refine ⟨new, by rw [hn1, hout], by omega, ?_⟩
        intro cmd hcmd
        obtain ⟨id, pr, hc, hpr, hnot⟩ := hn3 cmd hcmd
        rw [hst] at hnot
        exact ⟨id, pr, hc, List.mem_cons_of_mem _ hpr, hnot⟩
      · refine ⟨Command.insertOrder c.st.order_ids Side.ask i LOT_SIZE Lifespan.goodForDay :: new,
          ?_, ?_, ?_⟩
        · rw [hn1, hout]
          simp
        · simp only [List.length_cons]
          push_cast
          omega
        · intro cmd hcmd
          rcases List.mem_cons.mp hcmd with hh | hh
          · exact ⟨c.st.order_ids, i, hh, List.mem_cons_self _ _, hcond.1⟩
          · obtain ⟨id, pr, hc, hpr, hnot⟩ := hn3 cmd hh
            refine ⟨id, pr, hc, List.mem_cons_of_mem _ hpr, ?_⟩
            intro hmem
            apply hnot
            rw [hst]
            show pr ∈ orderValues (c.st.asks ++ [(c.st.order_ids, i, LOT_SIZE)])
            unfold orderValues at hmem ⊢
            rw [List.map_append]
            exact List.mem_append_left _ hmem
    · rw [if_neg hcond]
      obtain ⟨new, hn1, hn2, hn3⟩ := ih c cnt
      refine ⟨new, hn1, hn2, ?_⟩
      intro cmd hcmd
      obtain ⟨id, pr, hc, hpr, hnot⟩ := hn3 cmd hcmd
      exact ⟨id, pr, hc, List.mem_cons_of_mem _ hpr, hnot⟩

theorem mmBidLoop_out (prices : List Int) :
    ∀ (c : SendCtx) (cnt : Int),
      ∃ new, (mmBidLoop c cnt prices).out = c.out ++ new ∧
        ((new.length : Int) ≤ max cnt 0) ∧
        ∀ cmd ∈ new, ∃ id pr,
          cmd = Command.insertOrder id Side.bid pr LOT_SIZE Lifespan.goodForDay ∧
          pr ∈ prices ∧ pr ∉ orderValues c.st.bids := by
  induction prices with
  | nil =>
    intro c cnt
    exact ⟨[], by simp [mmBidLoop], by simp [le_max_iff], by simp⟩
  | cons i rest ih =>
    intro c cnt
    have hstep : mmBidLoop c cnt (i :: rest) =
        if i ∉ orderValues c.st.bids ∧ 0 < cnt then
          mmBidLoop (send_bid_order c i LOT_SIZE Lifespan.goodForDay) (cnt - 1) rest
        else mmBidLoop c cnt rest := rfl
    rw [hstep]
    by_cases hcond : i ∉ orderValues c.st.bids ∧ 0 < cnt
    · rw [if_pos hcond]
      obtain ⟨new, hn1, hn2, hn3⟩ := ih (send_bid_order c i LOT_SIZE Lifespan.goodForDay) (cnt - 1)
      rcases send_bid_cases c i LOT_SIZE Lifespan.goodForDay with ⟨hst, hout⟩ | ⟨hst, hout⟩
      · refine ⟨new, by rw [hn1, hout], by omega, ?_⟩
        intro cmd hcmd
        obtain ⟨id, pr, hc, hpr, hnot⟩ := hn3 cmd hcmd
        rw [hst] at hnot
        exact ⟨id, pr, hc, List.mem_cons_of_mem _ hpr, hnot⟩
      · refine ⟨Command.insertOrder c.st.order_ids Side.bid i LOT_SIZE Lifespan.goodForDay :: new,
          ?_, ?_, ?_⟩
        · rw [hn1, hout]
          simp
        · simp only [List.length_cons]
          push_cast
          omega
        · intro cmd hcmd
          rcases List.mem_cons.mp hcmd with hh | hh
          · exact ⟨c.st.order_ids, i, hh, List.mem_cons_self _ _, hcond.1⟩
          · obtain ⟨id, pr, hc, hpr, hnot⟩ := hn3 cmd hh
            refine ⟨id, pr, hc, List.mem_cons_of_mem _ hpr, ?_⟩
            intro hmem
            apply hnot
            rw [hst]
            show pr ∈ orderValues (c.st.bids ++ [(c.st.order_ids, i, LOT_SIZE)])
            unfold orderValues at hmem ⊢
            rw [List.map_append]
            exact List.mem_append_left _ hmem
    · rw [if_neg hcond]
      obtain ⟨new, hn1, hn2, hn3⟩ := ih c cnt
      refine ⟨new, hn1, hn2, ?_⟩
      intro cmd hcmd
      obtain ⟨id, pr, hc, hpr, hnot⟩ := hn3 cmd hcmd
      exact ⟨id, pr, hc, List.mem_cons_of_mem _ hpr, hnot⟩

/-- C7: when the market-making quoter runs, the commands it emits are the
book-clearing cancels followed by new quotes: every ask is a LOT_SIZE
good-for-day quote at a tick-step price inside `[minAsk, etfAsk)` not already
quoted on the ask side, every bid likewise inside `[etfBid, maxBid)` and not
already quoted on the bid side, with `minAsk = futureAsk + 2 ticks` and
`maxBid = futureBid - 2 ticks`; and the number of new quotes per side never
exceeds `floor((POSITION_LIMIT ± position)/LOT_SIZE)` minus the resting-order
count on that side (clamped at zero). -/
theorem market_making_quotes (s : TraderState) (adm : List Bool) (bp bv ap av : List Int) :
    ∃ cancels askNew bidNew,
      (handle_market_making ⟨s, adm, []⟩ bp bv ap av).out = cancels ++ askNew ++ bidNew ∧
      (∀ cmd ∈ cancels, ∃ id, cmd = Command.cancelOrder id) ∧
      (∀ cmd ∈ askNew, ∃ id pr,
        cmd = Command.insertOrder id Side.ask pr LOT_SIZE Lifespan.goodForDay ∧
        s.future_ask + 2 * TICK_SIZE_IN_CENTS ≤ pr ∧ pr < ap.headD 0 ∧
        (pr - (s.future_ask + 2 * TICK_SIZE_IN_CENTS)) % TICK_SIZE_IN_CENTS = 0 ∧
        pr ∉ orderValues s.asks) ∧
      (∀ cmd ∈ bidNew, ∃ id pr,
        cmd = Command.insertOrder id Side.bid pr LOT_SIZE Lifespan.goodForDay ∧
        bp.headD 0 ≤ pr ∧ pr < s.future_bid - 2 * TICK_SIZE_IN_CENTS ∧
        (pr - bp.headD 0) % TICK_SIZE_IN_CENTS = 0 ∧
        pr ∉ orderValues s.bids) ∧
      ((askNew.length : Int) ≤
        max ((s.position + POSITION_LIMIT).fdiv LOT_SIZE - s.asks.length) 0) ∧
      ((bidNew.length : Int) ≤
        max ((POSITION_LIMIT - s.position).fdiv LOT_SIZE - s.bids.length) 0) := by
  have hout : (handle_market_making ⟨s, adm, []⟩ bp bv ap av).out =
      (mmBidLoop
        (mmAskLoop (clear_book ⟨s, adm, []⟩ ap bp av bv)
          (((clear_book ⟨s, adm, []⟩ ap bp av bv).st.position + POSITION_LIMIT).fdiv LOT_SIZE -
            (clear_book ⟨s, adm, []⟩ ap bp av bv).st.asks.length)
          (priceRange ((clear_book ⟨s, adm, []⟩ ap bp av bv).st.future_ask +
            2 * TICK_SIZE_IN_CENTS) (ap.headD 0)))
        ((POSITION_LIMIT - (clear_book ⟨s, adm, []⟩ ap bp av bv).st.position).fdiv LOT_SIZE -
          (clear_book ⟨s, adm, []⟩ ap bp av bv).st.bids.length)
        (priceRange (bp.headD 0) ((clear_book ⟨s, adm, []⟩ ap bp av bv).st.future_bid -
          2 * TICK_SIZE_IN_CENTS))).out := rfl
  have hc0st : (clear_book ⟨s, adm, []⟩ ap bp av bv).st = s :=
    clear_book_st ⟨s, adm, []⟩ ap bp av bv
  rw [hout, hc0st]
  obtain ⟨cancels, hcb, hcbc⟩ := clear_book_cancels_only ⟨s, adm, []⟩ ap bp av bv
  simp only [List.nil_append] at hcb
  obtain ⟨askNew, ha1, ha2, ha3⟩ := mmAskLoop_out
    (priceRange (s.future_ask + 2 * TICK_SIZE_IN_CENTS) (ap.headD 0))
    (clear_book ⟨s, adm, []⟩ ap bp av bv)
    ((s.position + POSITION_LIMIT).fdiv LOT_SIZE - s.asks.length)
  obtain ⟨bidNew, hb1, hb2, hb3⟩ := mmBidLoop_out
    (priceRange (bp.headD 0) (s.future_bid - 2 * TICK_SIZE_IN_CENTS))
    (mmAskLoop (clear_book ⟨s, adm, []⟩ ap bp av bv)
      ((s.position + POSITION_LIMIT).fdiv LOT_SIZE - s.asks.length)
      (priceRange (s.future_ask + 2 * TICK_SIZE_IN_CENTS) (ap.headD 0)))
    ((POSITION_LIMIT - s.position).fdiv LOT_SIZE - s.bids.length)
  refine ⟨cancels, askNew, bidNew, ?_, hcbc, ?_, ?_, ha2, hb2⟩
  · rw [hb1, ha1, hcb]
  · intro cmd hcmd
    obtain ⟨id, pr, hc, hpr, hnot⟩ := ha3 cmd hcmd
    obtain ⟨hx1, hx2, hx3⟩ := mem_priceRange _ _ _ hpr
    rw [hc0st] at hnot
    exact ⟨id, pr, hc, hx1, hx2, hx3, hnot⟩
  · intro cmd hcmd
    obtain ⟨id, pr, hc, hpr, hnot⟩ := hb3 cmd hcmd
    obtain ⟨hx1, hx2, hx3⟩ := mem_priceRange _ _ _ hpr
    rw [(mmAskLoop_st _ _ _).1, hc0st] at hnot
    exact ⟨id, pr, hc, hx1, hx2, hx3, hnot⟩

/-! ### Ghost-ledger bookkeeping lemmas for the position invariant -/

theorem remSum_append (l1 l2 : List (Nat × Int × Int)) :
    remSum (l1 ++ l2) = remSum l1 + remSum l2 := by
  simp [remSum]

theorem remSum_nonneg (l : List (Nat × Int × Int)) (h : ∀ e ∈ l, 0 ≤ e.2.2) :
    0 ≤ remSum l := by
  induction l with
  | nil => simp [remSum]
  | cons e r ih =>
    have he := h e (List.mem_cons_self _ _)
    have hr := ih (fun x hx => h x (List.mem_cons_of_mem _ hx))
    simp only [remSum, List.map_cons, List.sum_cons] at *
    omega

theorem remSum_le_card (l : List (Nat × Int × Int)) (h : ∀ e ∈ l, e.2.2 ≤ LOT_SIZE) :
    remSum l ≤ LOT_SIZE * l.length := by
  induction l with
  | nil => simp [remSum]
  | cons e r ih =>
    have he := h e (List.mem_cons_self _ _)
    have hr := ih (fun x hx => h x (List.mem_cons_of_mem _ hx))
    simp only [remSum, List.map_cons, List.sum_cons, List.length_cons, LOT_SIZE] at *
    push_cast at *
    omega

theorem remSum_filter_le (l : List (Nat × Int × Int)) (p : (Nat × Int × Int) → Bool)
    (h : ∀ e ∈ l, 0 ≤ e.2.2) : remSum (l.filter p) ≤ remSum l := by
  induction l with
  | nil => simp [remSum]
  | cons e r ih =>
    have he := h e (List.mem_cons_self _ _)
    have hr := ih (fun x hx => h x (List.mem_cons_of_mem _ hx))
    rw [List.filter_cons]
    by_cases hp : p e = true
    · rw [if_pos hp]
      simp only [remSum, List.map_cons, List.sum_cons] at *
      omega
    · rw [if_neg hp]
      simp only [remSum, List.map_cons, List.sum_cons] at *
      omega

theorem updateFill_keys (l : List (Nat × Int × Int)) (id : Nat) (v : Int) :
    (updateFill l id v).map (fun e => e.1) = l.map (fun e => e.1) := by
  unfold updateFill
  rw [List.map_map]
  apply List.map_congr_left
  intro e _
  show (if (e.1 == id) = true then (e.1, e.2.1, e.2.2 - v) else e).1 = e.1
  split
  · rfl
  · rfl

theorem updateFill_of_not_mem (l : List (Nat × Int × Int)) (id : Nat) (v : Int)
    (h : ∀ e ∈ l, e.1 ≠ id) : updateFill l id v = l := by
  induction l with
  | nil => rfl
  | cons e r ih =>
    have he : ¬ (e.1 == id) = true := by
      simpa using h e (List.mem_cons_self _ _)
    unfold updateFill
    simp only [List.map_cons]
    rw [if_neg he]
    have := ih (fun x hx => h x (List.mem_cons_of_mem _ hx))
    unfold updateFill at this
    rw [this]

theorem remSum_updateFill (l : List (Nat × Int × Int)) (id : Nat) (v : Int)
    (hnd : (l.map (fun e => e.1)).Nodup) (e0 : Nat × Int × Int)
    (he : e0 ∈ l) (hid : e0.1 = id) :
    remSum (updateFill l id v) = remSum l - v := by
  induction l with
  | nil => simp at he
  | cons hd t ih =>
    rw [List.map_cons] at hnd
    have hnd' := (List.nodup_cons.mp hnd).2
    have hhd := (List.nodup_cons.mp hnd).1
    by_cases hh : hd.1 = id
    · have hnone : ∀ e ∈ t, e.1 ≠ id := by
        intro e het heq
        apply hhd
        rw [hh, ← heq]
        exact List.mem_map_of_mem _ het
      unfold updateFill
      simp only [List.map_cons]
      rw [if_pos (by simpa using hh)]
      have ht := updateFill_of_not_mem t id v hnone
      unfold updateFill at ht
      rw [ht]
      simp only [remSum, List.map_cons, List.sum_cons]
      omega
    · have het : e0 ∈ t := by
        rcases List.mem_cons.mp he with hcase | hcase
        · exfalso
          apply hh
          rw [← hcase]
          exact hid
        · exact hcase
      have hrec := ih hnd' het
      unfold updateFill at hrec ⊢
      simp only [List.map_cons]
      rw [if_neg (by simpa using hh)]
      simp only [remSum, List.map_cons, List.sum_cons] at hrec ⊢
      omega

theorem findOrder_some (l : List (Nat × Int × Int)) (id : Nat) (e : Nat × Int × Int)
    (h : findOrder l id = some e) : e ∈ l ∧ e.1 = id := by
  unfold findOrder at h
  exact ⟨List.mem_of_find?_eq_some h, by simpa using List.find?_some h⟩

theorem hasOrder_some (l : List (Nat × Int × Int)) (id : Nat)
    (h : hasOrder l id = true) : ∃ e, findOrder l id = some e := by
  unfold hasOrder at h
  exact Option.isSome_iff_exists.mp h

theorem ordersWF_mono (l : List (Nat × Int × Int)) (n n' : Nat) (h : n ≤ n')
    (hwf : ordersWF l n) : ordersWF l n' :=
  ⟨fun e he => lt_of_lt_of_le (hwf.1 e he) h, hwf.2.1, hwf.2.2⟩

theorem not_mem_keys_of_lt (l : List (Nat × Int × Int)) (n : Nat)
    (h : ∀ e ∈ l, e.1 < n) : n ∉ l.map (fun e => e.1) := by
  intro hmem
  obtain ⟨y, hy, hyeq⟩ := List.mem_map.mp hmem
  have := h y hy
  omega

theorem ordersWF_snoc (l : List (Nat × Int × Int)) (n : Nat) (pr : Int)
    (hwf : ordersWF l n) : ordersWF (l ++ [(n, pr, LOT_SIZE)]) (n + 1) := by
  obtain ⟨hkeys, hnd, hbnd⟩ := hwf
  refine ⟨?_, ?_, ?_⟩
  · intro e he
    rcases List.mem_append.mp he with hh | hh
    · have := hkeys e hh
      omega
    · rcases List.mem_singleton.mp hh with rfl
      omega
  · rw [List.map_append]
    rw [List.nodup_append]
    refine ⟨hnd, by simp, ?_⟩
    intro a ha hb
    simp only [List.map_cons, List.map_nil, List.mem_singleton] at hb
    rw [hb] at ha
    exact not_mem_keys_of_lt l n hkeys ha
  · intro e he
    rcases List.mem_append.mp he with hh | hh
    · exact hbnd e hh
    · rcases List.mem_singleton.mp hh with rfl
      refine ⟨by simp [LOT_SIZE], le_refl _⟩

theorem updateFill_wf (l : List (Nat × Int × Int)) (n : Nat) (id : Nat) (v : Int)
    (hwf : ordersWF l n) (e0 : Nat × Int × Int) (he : e0 ∈ l) (hid : e0.1 = id)
    (hv0 : 0 < v) (hvle : v ≤ e0.2.2) :
    ordersWF (updateFill l id v) n := by
  obtain ⟨hkeys, hnd, hbnd⟩ := hwf
  refine ⟨?_, ?_, ?_⟩
  · intro x hx
    unfold updateFill at hx
    obtain ⟨y, hy, rfl⟩ := List.mem_map.mp hx
    have hkey : (if (y.1 == id) = true then (y.1, y.2.1, y.2.2 - v) else y).1 = y.1 := by
      split
      · rfl
      · rfl
    rw [hkey]
    exact hkeys y hy
  · rw [show (updateFill l id v).map (fun e => e.1) = l.map (fun e => e.1) from
      updateFill_keys l id v]
    exact hnd
  · intro x hx
    unfold updateFill at hx
    obtain ⟨y, hy, rfl⟩ := List.mem_map.mp hx
    by_cases hy1 : (y.1 == id) = true
    · have hyid : y.1 = id := by simpa using hy1
      have heq : y = e0 := List.inj_on_of_nodup_map hnd hy he (by rw [hyid, hid])
      subst heq
      rw [if_pos hy1]
      have hb := hbnd y hy
      exact ⟨by dsimp only; omega, by dsimp only; omega⟩
    · rw [if_neg hy1]
      exact hbnd y hy

theorem removeOrder_wf (l : List (Nat × Int × Int)) (n : Nat) (id : Nat)
    (hwf : ordersWF l n) : ordersWF (removeOrder l id) n := by
  obtain ⟨hkeys, hnd, hbnd⟩ := hwf
  refine ⟨?_, ?_, ?_⟩
  · intro e he
    exact hkeys e (List.mem_of_mem_filter he)
  · exact List.Nodup.sublist ((List.filter_sublist l).map (fun e => e.1)) hnd
  · intro e he
    exact hbnd e (List.mem_of_mem_filter he)

theorem mmAskLoop_inv (prices : List Int) :
    ∀ (c : SendCtx) (cnt : Int),
      remSum (mmAskLoop c cnt prices).st.asks ≤
        remSum c.st.asks + LOT_SIZE * max cnt 0 ∧
      (ordersWF c.st.asks c.st.order_ids →
        ordersWF (mmAskLoop c cnt prices).st.asks (mmAskLoop c cnt prices).st.order_ids) := by
  induction prices with
  | nil =>
    intro c cnt
    refine ⟨?_, fun h => h⟩
    show remSum c.st.asks ≤ remSum c.st.asks + LOT_SIZE * max cnt 0
    have : (0 : Int) ≤ LOT_SIZE * max cnt 0 := by
      apply mul_nonneg
      · simp [LOT_SIZE]
      · exact le_max_right _ _
    omega
  | cons i rest ih =>
    intro c cnt
    have hstep : mmAskLoop c cnt (i :: rest) =
        if i ∉ orderValues c.st.asks ∧ 0 < cnt then
          mmAskLoop (send_ask_order c i LOT_SIZE Lifespan.goodForDay) (cnt - 1) rest
        else mmAskLoop c cnt rest := rfl
    rw [hstep]
    by_cases hcond : i ∉ orderValues c.st.asks ∧ 0 < cnt
    · rw [if_pos hcond]
      obtain ⟨ihs, ihw⟩ := ih (send_ask_order c i LOT_SIZE Lifespan.goodForDay) (cnt - 1)
      rcases send_ask_cases c i LOT_SIZE Lifespan.goodForDay with ⟨hst, _⟩ | ⟨hst, _⟩
      · rw [hst] at ihs ihw
        refine ⟨?_, ihw⟩
        have h1 : max (cnt - 1) 0 ≤ max cnt 0 := by omega
        have h2 : (0 : Int) ≤ LOT_SIZE := by simp [LOT_SIZE]
        nlinarith [ihs]
      · rw [hst] at ihs ihw
        dsimp only at ihs ihw
        have hsum : remSum (c.st.asks ++ [(c.st.order_ids, i, LOT_SIZE)]) =
            remSum c.st.asks + LOT_SIZE := by
          rw [remSum_append]
          simp [remSum]
        rw [hsum] at ihs
        constructor
        · simp only [LOT_SIZE] at ihs ⊢
          omega
        · intro hwf
          exact ihw (ordersWF_snoc c.st.asks c.st.order_ids i hwf)
    · rw [if_neg hcond]
      exact ih c cnt

theorem mmBidLoop_inv (prices : List Int) :
    ∀ (c : SendCtx) (cnt : Int),
      remSum (mmBidLoop c cnt prices).st.bids ≤
        remSum c.st.bids + LOT_SIZE * max cnt 0 ∧
      (ordersWF c.st.bids c.st.order_ids →
        ordersWF (mmBidLoop c cnt prices).st.bids (mmBidLoop c cnt prices).st.order_ids) := by
  induction prices with
  | nil =>
    intro c cnt
    refine ⟨?_, fun h => h⟩
    show remSum c.st.bids ≤ remSum c.st.bids + LOT_SIZE * max cnt 0
    have : (0 : Int) ≤ LOT_SIZE * max cnt 0 := by
      apply mul_nonneg
      · simp [LOT_SIZE]
      · exact le_max_right _ _
    omega
  | cons i rest ih =>
    intro c cnt
    have hstep : mmBidLoop c cnt (i :: rest) =
        if i ∉ orderValues c.st.bids ∧ 0 < cnt then
          mmBidLoop (send_bid_order c i LOT_SIZE Lifespan.goodForDay) (cnt - 1) rest
        else mmBidLoop c cnt rest := rfl
    rw [hstep]
    by_cases hcond : i ∉ orderValues c.st.bids ∧ 0 < cnt
    · rw [if_pos hcond]
      obtain ⟨ihs, ihw⟩ := ih (send_bid_order c i LOT_SIZE Lifespan.goodForDay) (cnt - 1)
      rcases send_bid_cases c i LOT_SIZE Lifespan.goodForDay with ⟨hst, _⟩ | ⟨hst, _⟩
      · rw [hst] at ihs ihw
        refine ⟨?_, ihw⟩
        have h1 : max (cnt - 1) 0 ≤ max cnt 0 := by omega
        have h2 : (0 : Int) ≤ LOT_SIZE := by simp [LOT_SIZE]
        nlinarith [ihs]
      · rw [hst] at ihs ihw
        dsimp only at ihs ihw
        have hsum : remSum (c.st.bids ++ [(c.st.order_ids, i, LOT_SIZE)]) =
            remSum c.st.bids + LOT_SIZE := by
          rw [remSum_append]
          simp [remSum]
        rw [hsum] at ihs
        constructor
        · simp only [LOT_SIZE] at ihs ⊢
          omega
        · intro hwf
          exact ihw (ordersWF_snoc c.st.bids c.st.order_ids i hwf)
    · rw [if_neg hcond]
      exact ih c cnt

/-! ### Handler-level preservation lemmas -/

theorem lot_mul_fdiv_le (a : Int) : LOT_SIZE * (a.fdiv LOT_SIZE) ≤ a := by
  have h0 : a.fdiv LOT_SIZE = a / LOT_SIZE := Int.fdiv_eq_ediv a (by simp [LOT_SIZE])
  have h1 := Int.ediv_add_emod a LOT_SIZE
  have h2 := Int.emod_nonneg a (by simp [LOT_SIZE] : (LOT_SIZE : Int) ≠ 0)
  rw [h0]
  omega

theorem handle_market_making_eq (c : SendCtx) (bp bv ap av : List Int) :
    handle_market_making c bp bv ap av =
      mmBidLoop
        (mmAskLoop (clear_book c ap bp av bv)
          (((clear_book c ap bp av bv).st.position + POSITION_LIMIT).fdiv LOT_SIZE -
            (clear_book c ap bp av bv).st.asks.length)
          (priceRange ((clear_book c ap bp av bv).st.future_ask + 2 * TICK_SIZE_IN_CENTS)
            (ap.headD 0)))
        ((POSITION_LIMIT - (clear_book c ap bp av bv).st.position).fdiv LOT_SIZE -
          (clear_book c ap bp av bv).st.bids.length)
        (priceRange (bp.headD 0)
          ((clear_book c ap bp av bv).st.future_bid - 2 * TICK_SIZE_IN_CENTS)) := rfl

theorem handle_market_making_position (c : SendCtx) (bp bv ap av : List Int) :
    (handle_market_making c bp bv ap av).st.position = c.st.position := by
  rw [handle_market_making_eq, (mmBidLoop_st _ _ _).2.1, (mmAskLoop_st _ _ _).2.1,
    clear_book_st]

theorem handle_arbitrage_position (c : SendCtx) (ap av bp bv : List Int) :
    (handle_arbitrage c ap av bp bv).st.position = c.st.position := by
  unfold handle_arbitrage
  dsimp only
  split
  · split
    · rcases send_bid_cases c (ap.headD 0)
        (min (av.headD 0) (ARBITRAGE_LIMIT - c.st.position)) Lifespan.fillAndKill with
        ⟨hst, _⟩ | ⟨hst, _⟩
      · rw [hst]
      · rw [hst]
    · rfl
  · split
    · split
      · rcases send_ask_cases c (bp.headD 0)
          (min (bv.headD 0) (c.st.position + ARBITRAGE_LIMIT)) Lifespan.fillAndKill with
          ⟨hst, _⟩ | ⟨hst, _⟩
        · rw [hst]
        · rw [hst]
      · rfl
    · rfl

theorem handle_arbitrage_cases (c : SendCtx) (ap av bp bv : List Int) :
    (handle_arbitrage c ap av bp bv).st = c.st ∨
    ∃ cmd ∈ (handle_arbitrage c ap av bp bv).out, isFakInsert cmd = true := by
  unfold handle_arbitrage
  dsimp only
  split
  · split
    · rcases send_bid_cases c (ap.headD 0)
        (min (av.headD 0) (ARBITRAGE_LIMIT - c.st.position)) Lifespan.fillAndKill with
        ⟨hst, _⟩ | ⟨hst, hout⟩
      · exact Or.inl hst
      · right
        rw [hout]
        exact ⟨_, List.mem_append_right _ (List.mem_singleton_self _), rfl⟩
    · exact Or.inl rfl
  · split
    · split
      · rcases send_ask_cases c (bp.headD 0)
          (min (bv.headD 0) (c.st.position + ARBITRAGE_LIMIT)) Lifespan.fillAndKill with
          ⟨hst, _⟩ | ⟨hst, hout⟩
        · exact Or.inl hst
        · right
          rw [hout]
          exact ⟨_, List.mem_append_right _ (List.mem_singleton_self _), rfl⟩
      · exact Or.inl rfl
    · exact Or.inl rfl

theorem book_update_future (s : TraderState) (seq : Nat)
    (ap av bp bv : List Int) (adm : List Bool) (hle : s.msg_seq ≤ seq)
    (hb : bp.headD 0 ≠ 0) (ha : ap.headD 0 ≠ 0) :
    on_order_book_update s Instrument.future seq ap av bp bv adm =
      ({ s with msg_seq := seq, future_bid := bp.headD 0, future_ask := ap.headD 0 },
        (trim_orders ⟨{ s with
          msg_seq := seq, future_bid := bp.headD 0, future_ask := ap.headD 0 },
          adm, []⟩).out) := by
  have hmax : max s.msg_seq seq = seq := Nat.max_eq_right hle
  unfold on_order_book_update
  simp only [hmax]
  split
  next hcond => exact absurd rfl hcond
  next =>
    split
    next hz =>
      exfalso
      rcases hz with hz | hz
      · exact hb hz
      · exact ha hz
    next =>
      simp only [trim_orders_st]

theorem book_update_zero (s : TraderState) (i : Instrument) (seq : Nat)
    (ap av bp bv : List Int) (adm : List Bool) (hle : s.msg_seq ≤ seq)
    (hz : bp.headD 0 = 0 ∨ ap.headD 0 = 0) :
    on_order_book_update s i seq ap av bp bv adm = ({ s with msg_seq := seq }, []) := by
  have hmax : max s.msg_seq seq = seq := Nat.max_eq_right hle
  unfold on_order_book_update
  simp only [hmax]
  split
  next hcond => exact absurd rfl hcond
  next => rfl

theorem posInv_mm (c : SendCtx) (bp bv ap av : List Int) (h : PosInv c.st) :
    PosInv (handle_market_making c bp bv ap av).st := by
  obtain ⟨hbw, haw, hbsum, hasum⟩ := h
  have hc0 : (clear_book c ap bp av bv).st = c.st := clear_book_st c ap bp av bv
  rw [handle_market_making_eq, hc0]
  obtain ⟨hA, hAw⟩ := mmAskLoop_inv
    (priceRange (c.st.future_ask + 2 * TICK_SIZE_IN_CENTS) (ap.headD 0))
    (clear_book c ap bp av bv)
    ((c.st.position + POSITION_LIMIT).fdiv LOT_SIZE - c.st.asks.length)
  obtain ⟨hB, hBw⟩ := mmBidLoop_inv
    (priceRange (bp.headD 0) (c.st.future_bid - 2 * TICK_SIZE_IN_CENTS))
    (mmAskLoop (clear_book c ap bp av bv)
      ((c.st.position + POSITION_LIMIT).fdiv LOT_SIZE - c.st.asks.length)
      (priceRange (c.st.future_ask + 2 * TICK_SIZE_IN_CENTS) (ap.headD 0)))
    ((POSITION_LIMIT - c.st.position).fdiv LOT_SIZE - c.st.bids.length)
  have h1bids : (mmAskLoop (clear_book c ap bp av bv)
      ((c.st.position + POSITION_LIMIT).fdiv LOT_SIZE - c.st.asks.length)
      (priceRange (c.st.future_ask + 2 * TICK_SIZE_IN_CENTS) (ap.headD 0))).st.bids =
      c.st.bids := by
    rw [(mmAskLoop_st _ _ _).1, hc0]
  have h1asks : (mmAskLoop (clear_book c ap bp av bv)
      ((c.st.position + POSITION_LIMIT).fdiv LOT_SIZE - c.st.asks.length)
      (priceRange (c.st.future_ask + 2 * TICK_SIZE_IN_CENTS) (ap.headD 0))).st.asks =
      (mmAskLoop (clear_book c ap bp av bv)
      ((c.st.position + POSITION_LIMIT).fdiv LOT_SIZE - c.st.asks.length)
      (priceRange (c.st.future_ask + 2 * TICK_SIZE_IN_CENTS) (ap.headD 0))).st.asks := rfl
  have h1pos : (mmAskLoop (clear_book c ap bp av bv)
      ((c.st.position + POSITION_LIMIT).fdiv LOT_SIZE - c.st.asks.length)
      (priceRange (c.st.future_ask + 2 * TICK_SIZE_IN_CENTS) (ap.headD 0))).st.position =
      c.st.position := by
    rw [(mmAskLoop_st _ _ _).2.1, hc0]
  have h1ids : c.st.order_ids ≤ (mmAskLoop (clear_book c ap bp av bv)
      ((c.st.position + POSITION_LIMIT).fdiv LOT_SIZE - c.st.asks.length)
      (priceRange (c.st.future_ask + 2 * TICK_SIZE_IN_CENTS) (ap.headD 0))).st.order_ids := by
    have hmono := (mmAskLoop_st
      (priceRange (c.st.future_ask + 2 * TICK_SIZE_IN_CENTS) (ap.headD 0))
      (clear_book c ap bp av bv)
      ((c.st.position + POSITION_LIMIT).fdiv LOT_SIZE - c.st.asks.length)).2.2.2.2.2
    rw [hc0] at hmono
    exact hmono
  have h2asks := (mmBidLoop_st
    (priceRange (bp.headD 0) (c.st.future_bid - 2 * TICK_SIZE_IN_CENTS))
    (mmAskLoop (clear_book c ap bp av bv)
      ((c.st.position + POSITION_LIMIT).fdiv LOT_SIZE - c.st.asks.length)
      (priceRange (c.st.future_ask + 2 * TICK_SIZE_IN_CENTS) (ap.headD 0)))
    ((POSITION_LIMIT - c.st.position).fdiv LOT_SIZE - c.st.bids.length)).1
  have h2pos := (mmBidLoop_st
    (priceRange (bp.headD 0) (c.st.future_bid - 2 * TICK_SIZE_IN_CENTS))
    (mmAskLoop (clear_book c ap bp av bv)
      ((c.st.position + POSITION_LIMIT).fdiv LOT_SIZE - c.st.asks.length)
      (priceRange (c.st.future_ask + 2 * TICK_SIZE_IN_CENTS) (ap.headD 0)))
    ((POSITION_LIMIT - c.st.position).fdiv LOT_SIZE - c.st.bids.length)).2.1
  have h2ids := (mmBidLoop_st
    (priceRange (bp.headD 0) (c.st.future_bid - 2 * TICK_SIZE_IN_CENTS))
    (mmAskLoop (clear_book c ap bp av bv)
      ((c.st.position + POSITION_LIMIT).fdiv LOT_SIZE - c.st.asks.length)
      (priceRange (c.st.future_ask + 2 * TICK_SIZE_IN_CENTS) (ap.headD 0)))
    ((POSITION_LIMIT - c.st.position).fdiv LOT_SIZE - c.st.bids.length)).2.2.2.2.2
  refine ⟨?_, ?_, ?_, ?_⟩
  · apply hBw
    rw [h1bids]
    exact ordersWF_mono _ _ _ h1ids hbw
  · rw [h2asks]
    apply ordersWF_mono _ _ _ h2ids
    apply hAw
    rw [hc0]
    exact haw
  · rw [h2pos, h1pos]
    rw [h1bids] at hB
    have hcap := lot_mul_fdiv_le (POSITION_LIMIT - c.st.position)
    have hlenb := remSum_le_card c.st.bids (fun e he => (hbw.2.2 e he).2)
    simp only [LOT_SIZE, POSITION_LIMIT] at hB hcap hlenb hbsum ⊢
    omega
  · rw [h2asks, h2pos, h1pos]
    have hca : (clear_book c ap bp av bv).st.asks = c.st.asks := by rw [hc0]
    rw [hca] at hA
    have hcap := lot_mul_fdiv_le (c.st.position + POSITION_LIMIT)
    have hlena := remSum_le_card c.st.asks (fun e he => (haw.2.2 e he).2)
    simp only [LOT_SIZE, POSITION_LIMIT] at hA hcap hlena hasum ⊢
    omega

theorem posInv_status (s : TraderState) (id : Nat) (f r fee : Int) (h : PosInv s) :
    PosInv (on_order_status s id f r fee).1 := by
  unfold on_order_status
  split
  · obtain ⟨hb, ha, h1, h2⟩ := h
    refine ⟨removeOrder_wf _ _ _ hb, removeOrder_wf _ _ _ ha, ?_, ?_⟩
    · have hle := remSum_filter_le s.bids (fun e => e.1 != id) (fun e he => (hb.2.2 e he).1)
      show s.position + remSum (removeOrder s.bids id) ≤ POSITION_LIMIT
      unfold removeOrder
      omega
    · have hle := remSum_filter_le s.asks (fun e => e.1 != id) (fun e he => (ha.2.2 e he).1)
      show -s.position + remSum (removeOrder s.asks id) ≤ POSITION_LIMIT
      unfold removeOrder
      omega
  · exact h

theorem posInv_error (s : TraderState) (id : Nat) (h : PosInv s) :
    PosInv (on_error s id).1 := by
  unfold on_error
  split
  · exact posInv_status s id 0 0 0 h
  · exact h

theorem posInv_hedge (s : TraderState) (id : Nat) (p v : Int) (h : PosInv s) :
    PosInv (on_hedge_filled s id p v).1 := by
  unfold on_hedge_filled
  split
  · exact h
  · split
    · exact h
    · exact h

theorem posInv_filled (s : TraderState) (id : Nat) (p v : Int) (h : PosInv s)
    (hok : fillOk s (Event.orderFilled id p v) = true) :
    PosInv (on_order_filled s id p v).1 := by
  obtain ⟨hb, ha, h1, h2⟩ := h
  by_cases hbid : hasOrder s.bids id = true
  · obtain ⟨e0, hfind⟩ := hasOrder_some _ _ hbid
    obtain ⟨hmem, hkey⟩ := findOrder_some _ _ _ hfind
    have hok2 : (match findOrder s.bids id with
        | some e => decide (0 < v) && decide (v ≤ e.2.2)
        | none =>
          match findOrder s.asks id with
          | some e => decide (0 < v) && decide (v ≤ e.2.2)
          | none => true) = true := hok
    rw [hfind] at hok2
    obtain ⟨hv0, hvle⟩ : 0 < v ∧ v ≤ e0.2.2 := by simpa using hok2
    unfold on_order_filled
    rw [if_pos hbid]
    refine ⟨?_, ?_, ?_, ?_⟩
    · show ordersWF (updateFill s.bids id v) (s.order_ids + 1)
      exact ordersWF_mono _ _ _ (Nat.le_succ _)
        (updateFill_wf _ _ _ _ ⟨hb.1, hb.2.1, hb.2.2⟩ e0 hmem hkey hv0 hvle)
    · show ordersWF s.asks (s.order_ids + 1)
      exact ordersWF_mono _ _ _ (Nat.le_succ _) ha
    · show s.position + v + remSum (updateFill s.bids id v) ≤ POSITION_LIMIT
      rw [remSum_updateFill s.bids id v hb.2.1 e0 hmem hkey]
      omega
    · show -(s.position + v) + remSum s.asks ≤ POSITION_LIMIT
      omega
  · have hnone : findOrder s.bids id = none := by
      unfold hasOrder at hbid
      cases hcase : findOrder s.bids id with
      | none => rfl
      | some e =>
        rw [hcase] at hbid
        simp at hbid
    by_cases hask : hasOrder s.asks id = true
    · obtain ⟨e0, hfind⟩ := hasOrder_some _ _ hask
      obtain ⟨hmem, hkey⟩ := findOrder_some _ _ _ hfind
      have hok2 : (match findOrder s.bids id with
          | some e => decide (0 < v) && decide (v ≤ e.2.2)
          | none =>
            match findOrder s.asks id with
            | some e => decide (0 < v) && decide (v ≤ e.2.2)
            | none => true) = true := hok
      rw [hnone, hfind] at hok2
      obtain ⟨hv0, hvle⟩ : 0 < v ∧ v ≤ e0.2.2 := by simpa using hok2
      unfold on_order_filled
      rw [if_neg (by simp [hbid]), if_pos hask]
      refine ⟨?_, ?_, ?_, ?_⟩
      · show ordersWF s.bids (s.order_ids + 1)
        exact ordersWF_mono _ _ _ (Nat.le_succ _) hb
      · show ordersWF (updateFill s.asks id v) (s.order_ids + 1)
        exact ordersWF_mono _ _ _ (Nat.le_succ _)
          (updateFill_wf _ _ _ _ ⟨ha.1, ha.2.1, ha.2.2⟩ e0 hmem hkey hv0 hvle)
      · show s.position - v + remSum s.bids ≤ POSITION_LIMIT
        omega
      · show -(s.position - v) + remSum (updateFill s.asks id v) ≤ POSITION_LIMIT
        rw [remSum_updateFill s.asks id v ha.2.1 e0 hmem hkey]
        omega
    · unfold on_order_filled
      rw [if_neg (by simp [hbid]), if_neg (by simp [hask])]
      exact ⟨hb, ha, h1, h2⟩

theorem posInv_book (s : TraderState) (i : Instrument) (seq : Nat)
    (ap av bp bv : List Int) (adm : List Bool) (h : PosInv s)
    (hnf : ((on_order_book_update s i seq ap av bp bv adm).2.all
      fun c => !isFakInsert c) = true) :
    PosInv (on_order_book_update s i seq ap av bp bv adm).1 := by
  by_cases hseq : seq < s.msg_seq
  · rw [gate_discard s i seq ap av bp bv adm hseq]
    exact h
  · have hle : s.msg_seq ≤ seq := by omega
    by_cases hz : bp.headD 0 = 0 ∨ ap.headD 0 = 0
    · rw [book_update_zero s i seq ap av bp bv adm hle hz]
      exact h
    · push_neg at hz
      cases i with
      | future =>
        rw [book_update_future s seq ap av bp bv adm hle hz.1 hz.2]
        exact h
      | etf =>
        rw [book_update_etf s seq ap av bp bv adm hle hz.1 hz.2] at hnf ⊢
        by_cases harb : ap.headD 0 < s.future_bid ∨ s.future_ask < bp.headD 0
        · rw [if_pos harb] at hnf ⊢
          rcases handle_arbitrage_cases ⟨{ s with msg_seq := seq }, adm, []⟩ ap av bp bv with
            hcase | ⟨cmd, hcmd, hfak⟩
          · show PosInv (handle_arbitrage ⟨{ s with msg_seq := seq }, adm, []⟩ ap av bp bv).st
            rw [hcase]
            exact h
          · exfalso
            have hall := List.all_eq_true.mp hnf _ hcmd
            rw [hfak] at hall
            simp at hall
        · rw [if_neg harb] at hnf ⊢
          by_cases hmm : s.future_ask < ap.headD 0 ∧ bp.headD 0 < s.future_bid
          · rw [if_pos hmm]
            show PosInv (handle_market_making ⟨{ s with msg_seq := seq }, adm, []⟩ bp bv ap av).st
            exact posInv_mm _ _ _ _ _ h
          · rw [if_neg hmm]
            exact h

theorem posInv_step (s : TraderState) (e : Event) (h : PosInv s)
    (hok : fillOk s e = true)
    (hnf : ((step s e).2.all fun c => !isFakInsert c) = true) :
    PosInv (step s e).1 := by
  cases e with
  | bookUpdate i q ap av bp bv adm => exact posInv_book s i q ap av bp bv adm h hnf
  | tradeTicks i q ap av bp bv => exact h
  | orderFilled id p v => exact posInv_filled s id p v h hok
  | orderStatus id f r fee => exact posInv_status s id f r fee h
  | hedgeFilled id p v => exact posInv_hedge s id p v h
  | errorMessage id => exact posInv_error s id h

theorem posInv_init : PosInv initialState := by
  refine ⟨⟨?_, ?_, ?_⟩, ⟨?_, ?_, ?_⟩, ?_, ?_⟩ <;>
    simp [initialState, remSum, POSITION_LIMIT]

theorem posInv_run : ∀ (evs : List Event) (s : TraderState), PosInv s →
    consistentTrace s evs = true → noFakTrace s evs = true →
    PosInv (runState s evs) := by
  intro evs
  induction evs with
  | nil => intro s h _ _; exact h
  | cons e r ih =>
    intro s h hc hn
    simp only [consistentTrace, Bool.and_eq_true] at hc
    simp only [noFakTrace, Bool.and_eq_true] at hn
    exact ih (step s e).1 (posInv_step s e h hc.1 hn.1) hc.2 hn.2

theorem status_position (s : TraderState) (id : Nat) (f r fee : Int) :
    (on_order_status s id f r fee).1.position = s.position := by
  unfold on_order_status
  split <;> rfl

theorem error_position (s : TraderState) (id : Nat) :
    (on_error s id).1.position = s.position := by
  unfold on_error
  split
  · exact status_position s id 0 0 0
  · rfl

theorem hedge_position (s : TraderState) (id : Nat) (p v : Int) :
    (on_hedge_filled s id p v).1.position = s.position := by
  unfold on_hedge_filled
  split
  · rfl
  · split <;> rfl

theorem book_update_position (s : TraderState) (i : Instrument) (seq : Nat)
    (ap av bp bv : List Int) (adm : List Bool) :
    (on_order_book_update s i seq ap av bp bv adm).1.position = s.position := by
  by_cases hseq : seq < s.msg_seq
  · rw [gate_discard s i seq ap av bp bv adm hseq]
  · have hle : s.msg_seq ≤ seq := by omega
    by_cases hz : bp.headD 0 = 0 ∨ ap.headD 0 = 0
    · rw [book_update_zero s i seq ap av bp bv adm hle hz]
    · push_neg at hz
      cases i with
      | future => rw [book_update_future s seq ap av bp bv adm hle hz.1 hz.2]
      | etf =>
        rw [book_update_etf s seq ap av bp bv adm hle hz.1 hz.2]
        by_cases harb : ap.headD 0 < s.future_bid ∨ s.future_ask < bp.headD 0
        · rw [if_pos harb]
          show (handle_arbitrage ⟨{ s with msg_seq := seq }, adm, []⟩ ap av bp bv).st.position
            = s.position
          rw [handle_arbitrage_position]
        · rw [if_neg harb]
          by_cases hmm : s.future_ask < ap.headD 0 ∧ bp.headD 0 < s.future_bid
          · rw [if_pos hmm]
            show (handle_market_making ⟨{ s with msg_seq := seq }, adm, []⟩ bp bv ap av).st.position
              = s.position
            rw [handle_market_making_position]
          · rw [if_neg hmm]

/-- Claim C1 (corrected).  Part (a) of the claim holds as stated for the
handlers the code has: no handler other than the order-filled callback ever
mutates `position` (the hedge-filled callback only adjusts the hedge ledgers
and delta).  Part (b) is corrected: the |position| ≤ POSITION_LIMIT bound
holds for every consistent fill sequence in which the arbitrage detector
never fires (no fill-and-kill order is sent); once arbitrage fill-and-kill
orders join resting market-making orders, consistent fills can push the
position beyond the limit (see the counterexample). -/
theorem position_bound :
    (∀ (s : TraderState) (e : Event), e.isOrderFilled = false →
      (step s e).1.position = s.position) ∧
    (∀ evs : List Event, consistentTrace initialState evs = true →
      noFakTrace initialState evs = true →
      -POSITION_LIMIT ≤ (runState initialState evs).position ∧
      (runState initialState evs).position ≤ POSITION_LIMIT) := by
  constructor
  · intro s e he
    cases e with
    | bookUpdate i q ap av bp bv adm => exact book_update_position s i q ap av bp bv adm
    | tradeTicks i q ap av bp bv => rfl
    | orderFilled id p v => simp [Event.isOrderFilled] at he
    | orderStatus id f r fee => exact status_position s id f r fee
    | hedgeFilled id p v => exact hedge_position s id p v
    | errorMessage id => exact error_position s id
  · intro evs hc hn
    obtain ⟨hb, ha, h1, h2⟩ := posInv_run evs initialState posInv_init hc hn
    have hnb := remSum_nonneg (runState initialState evs).bids
      (fun e he => (hb.2.2 e he).1)
    have hna := remSum_nonneg (runState initialState evs).asks
      (fun e he => (ha.2.2 e he).1)
    exact ⟨by omega, by omega⟩

theorem position_bound_witness :
    (step initialState (Event.orderStatus 1 0 0 0)).1.position = initialState.position ∧
    (-POSITION_LIMIT ≤ (runState initialState (mixedFillTrace.take 2)).position ∧
      (runState initialState (mixedFillTrace.take 2)).position ≤ POSITION_LIMIT) :=
  ⟨position_bound.1 initialState (Event.orderStatus 1 0 0 0) rfl,
   position_bound.2 (mixedFillTrace.take 2) (by decide) (by decide)⟩

/-- Counterexample to the bound of claim C1 as stated: `mixedFillTrace` is a
consistent trace (every fill names a live order and respects its remaining
volume) mixing one arbitrage fill-and-kill buy with five resting quoter bids,
and it drives the position to 120 > POSITION_LIMIT. -/
theorem position_bound_cex :
    consistentTrace initialState mixedFillTrace = true ∧
    (runState initialState mixedFillTrace).position = 120 ∧
    POSITION_LIMIT < (runState initialState mixedFillTrace).position :=
  ⟨by decide, by decide, by decide⟩
